import Mathlib

/-!
Verification of the life-os document store against its specification.

The development shallowly embeds the TypeScript source:

* the frontmatter codec (`parseFrontmatter` / `generateFrontmatter` from
  `src/app/api/documents/[...slug]/route.ts`), with strings modelled as
  `List Char` and the two JavaScript regexes modelled as the scanning
  functions they denote (leftmost match, greedy character classes);
* the documents CRUD handlers (`src/app/api/documents/route.ts`);
* the GitHub mirror sync pass (`src/app/api/sync/route.ts`);
* the listing sort of `src/lib/documents.ts`.

JavaScript semantics are modelled for ASCII input: `\s`, `trim`,
`toLowerCase` and NFD normalization are taken at their ASCII meaning.
-/

set_option maxHeartbeats 1000000

namespace LifeOS

abbrev Chars := List Char

/-- ASCII part of the JavaScript whitespace class `\s` (also used by `trim`). -/
def isWs (c : Char) : Bool :=
  c == ' ' || c == '\t' || c == '\n' || c == '\r' || c == '\x0b' || c == '\x0c'

/-- JavaScript `String.prototype.trim` on ASCII text. -/
def trimWs (l : Chars) : Chars :=
  (l.dropWhile isWs).rdropWhile isWs

/-- JavaScript `"s".split(',')`: split at every comma, never returns `[]`. -/
def splitComma : Chars → List Chars
  | [] => [[]]
  | c :: r =>
    if c = ',' then [] :: splitComma r
    else
      match splitComma r with
      | [] => [[c]]
      | h :: t => (c :: h) :: t

/-- JavaScript `tags.join(', ')`. -/
def joinCS : List Chars → Chars
  | [] => []
  | [t] => t
  | t :: ts => t ++ ',' :: ' ' :: joinCS ts

/-- JavaScript `t.replace(/^#/, '')`: remove one leading `#` if present. -/
def dropLeadHash : Chars → Chars
  | '#' :: r => r
  | l => l

/-- One tag through `t.replace(/^#/, '').trim()` (serializer side). -/
def sanitizeTag (t : Chars) : Chars :=
  trimWs (dropLeadHash t)

/-- `data.tags.map(t => t.replace(/^#/, '').trim()).filter(Boolean)` from
`generateFrontmatter`. -/
def sanitizeTags (ts : List Chars) : List Chars :=
  (ts.map sanitizeTag).filter (fun t => !t.isEmpty)

def kwTitle : Chars := ['t', 'i', 't', 'l', 'e', ':']
def kwDate : Chars := ['d', 'a', 't', 'e', ':']
def kwType : Chars := ['t', 'y', 'p', 'e', ':']
def kwTags : Chars := ['t', 'a', 'g', 's', ':']

/-- Opening delimiter `---\n` of the frontmatter block regex. -/
def openDelim : Chars := ['-', '-', '-', '\n']

/-- Closing delimiter `\n---\n` of the frontmatter block regex. -/
def closeDelim : Chars := ['\n', '-', '-', '-', '\n']

/-- Whether the list contains a newline immediately followed by `-`; its
absence pins down where the first `\n---\n` of a well-formed document sits. -/
def hasNlDash : Chars → Bool
  | [] => false
  | [_] => false
  | a :: b :: r => (a == '\n' && b == '-') || hasNlDash (b :: r)

/-- Index of the first occurrence of `closeDelim`, as matched by the lazy
group in `/^---\n([\s\S]*?)\n---\n([\s\S]*)$/`. -/
def findClose : Chars → Option Nat
  | [] => none
  | c :: r =>
    if closeDelim.isPrefixOf (c :: r) then some 0
    else (findClose r).map (· + 1)

/-- The anchored block regex `/^---\n([\s\S]*?)\n---\n([\s\S]*)$/` of
`parseFrontmatter`: `some (header, rest)` on a match, `none` otherwise. -/
def splitFM (content : Chars) : Option (Chars × Chars) :=
  if openDelim.isPrefixOf content then
    match findClose (content.drop 4) with
    | some i => some ((content.drop 4).take i, (content.drop 4).drop (i + 5))
    | none => none
  else none

/-- Generic leftmost-match scanner: try the matcher at every position from the
left, as a JavaScript regex search does. -/
def scanWith (f : Chars → Option α) : Chars → Option α
  | [] => none
  | c :: r =>
    match f (c :: r) with
    | some v => some v
    | none => scanWith f r

/-- One attempt of `kw\s*(\S+)` (the `date:` / `type:` field regexes) at the
head of `l`. -/
def tryTok (kw l : Chars) : Option Chars :=
  if kw.isPrefixOf l then
    let r := (l.drop kw.length).dropWhile isWs
    let cap := r.takeWhile (fun c => !(isWs c))
    if cap.isEmpty then none else some cap
  else none

/-- One attempt of `title:\s*"([^"]+)"` at the head of `l`. -/
def tryTitle (l : Chars) : Option Chars :=
  if kwTitle.isPrefixOf l then
    match (l.drop 6).dropWhile isWs with
    | '"' :: r =>
      let cap := r.takeWhile (fun c => c ≠ '"')
      match r.dropWhile (fun c => c ≠ '"') with
      | [] => none
      | _ :: _ => if cap.isEmpty then none else some cap
    | _ => none
  else none

/-- One attempt of `tags:\s*\[([^\]]*)\]` at the head of `l`. -/
def tryTags (l : Chars) : Option Chars :=
  if kwTags.isPrefixOf l then
    match (l.drop 5).dropWhile isWs with
    | '[' :: r =>
      match r.dropWhile (fun c => c ≠ ']') with
      | [] => none
      | _ :: _ => some (r.takeWhile (fun c => c ≠ ']'))
    | _ => none
  else none

/-- `tagsMatch[1].split(',').map(t => t.trim()).filter(Boolean)` from
`parseFrontmatter`. -/
def cleanTags (raw : Chars) : List Chars :=
  ((splitComma raw).map trimWs).filter (fun t => !t.isEmpty)

/-- The metadata record built by `parseFrontmatter`; each field is `none`
when its regex did not match. -/
structure FMeta where
  title : Option Chars
  date : Option Chars
  typ : Option Chars
  tags : Option (List Chars)
deriving DecidableEq, Repr

def FMeta.empty : FMeta := ⟨none, none, none, none⟩

/-- `parseFrontmatter` from `src/app/api/documents/[...slug]/route.ts`:
returns the extracted metadata and the (trimmed) body; when the block regex
does not match, returns empty metadata and the whole input. -/
def parseFrontmatter (content : Chars) : FMeta × Chars :=
  match splitFM content with
  | none => (FMeta.empty, content)
  | some (fm, body) =>
    (⟨scanWith tryTitle fm,
      scanWith (tryTok kwDate) fm,
      scanWith (tryTok kwType) fm,
      (scanWith tryTags fm).map cleanTags⟩,
     trimWs body)

/-- The `title: "<t>"` header line. -/
def titleLine (t : Chars) : Chars := kwTitle ++ ' ' :: '"' :: t ++ ['"']

/-- The `date: <d>` header line. -/
def dateLine (d : Chars) : Chars := kwDate ++ ' ' :: d

/-- The `type: <y>` header line. -/
def typeLine (y : Chars) : Chars := kwType ++ ' ' :: y

/-- The `tags: [<j>]` header line, `j` the already-joined tag list. -/
def tagsLine (j : Chars) : Chars := kwTags ++ ' ' :: '[' :: j ++ [']']

/-- Everything between the two `---` delimiter lines of the generated
frontmatter. -/
def fmHeader (title date typ : Chars) (tags : List Chars) : Chars :=
  titleLine title ++ '\n' :: dateLine date ++ '\n' :: typeLine typ ++
    '\n' :: tagsLine (joinCS (sanitizeTags tags))

/-- `generateFrontmatter` from `src/app/api/documents/[...slug]/route.ts`
(the variant that sanitizes tags). -/
def generateFrontmatter (title date typ : Chars) (tags : List Chars) : Chars :=
  openDelim ++ fmHeader title date typ tags ++ '\n' :: ['-', '-', '-']

/-- The full document written by the handlers:
``myFrontmatter + "\n\n" + content``. -/
def serializeDoc (title date typ : Chars) (tags : List Chars) (body : Chars) : Chars :=
  generateFrontmatter title date typ tags ++ '\n' :: '\n' :: body

/-- JavaScript `x || dflt` for a possibly-absent string field (the empty
string is falsy). -/
def jsOrStr (o : Option Chars) (d : Chars) : Chars :=
  match o with
  | none => d
  | some s => if s.isEmpty then d else s

def noteChars : Chars := ['n', 'o', 't', 'e']

/-- The PUT handler's serialization of caller-supplied fields, with the
source's defaulting: `date || today`, `type || 'note'`, `tags || []`. -/
def serializeDocAPI (title : Chars) (date : Option Chars) (typ : Option Chars)
    (tags : Option (List Chars)) (today body : Chars) : Chars :=
  serializeDoc title (jsOrStr date today) (jsOrStr typ noteChars) (tags.getD []) body

/-- ASCII digit test. -/
def isDigit (c : Char) : Bool := '0' ≤ c && c ≤ '9'

/-- Validity of a title for the round-trip: nonempty, and free of the three
characters that the line-oriented header format cannot carry in a title
(`"` ends the quoted value, `\n` ends the line, `:` could fabricate another
`key:` match for the later field regexes). -/
@[reducible] def ValidTitle (t : Chars) : Prop :=
  t ≠ [] ∧ '"' ∉ t ∧ '\n' ∉ t ∧ ':' ∉ t

/-- Validity of a date value: nonempty and made of ISO-8601 date characters
(digits and hyphen-minus). -/
@[reducible] def ValidDate (d : Chars) : Prop :=
  d ≠ [] ∧ ∀ c ∈ d, isDigit c = true ∨ c = '-'

/-- The closed set of document types from the data model. -/
def docTypes : List Chars :=
  [['c','o','n','c','e','p','t'], ['d','e','c','i','s','i','o','n'],
   ['j','o','u','r','n','a','l'], ['n','o','t','e'],
   ['r','e','f','e','r','e','n','c','e']]

@[reducible] def ValidType (y : Chars) : Prop := y ∈ docTypes

/-- Validity of one tag for the round-trip: nonempty, fixed by the
serializer's sanitization (so no leading `#`, no surrounding whitespace), and
free of the characters that break the bracketed comma-separated encoding. -/
@[reducible] def ValidTag (t : Chars) : Prop :=
  t ≠ [] ∧ sanitizeTag t = t ∧ ',' ∉ t ∧ ']' ∉ t ∧ '\n' ∉ t

/-! ### Remote mirror sync (`src/app/api/sync/route.ts`) -/

/-- A staged remote operation of the sync pass. `create` carries no version
token; `update` and `del` carry the sha read during enumeration. -/
inductive SyncOp where
  | create (path content : Chars)
  | update (path content sha : Chars)
  | del (path sha : Chars)
deriving DecidableEq, Repr

/-- First-match association-list lookup, the `Map.get` of the handlers. -/
def lookupA (m : List (Chars × Chars)) (k : Chars) : Option Chars :=
  match m with
  | [] => none
  | (k', v) :: r => if k' = k then some v else lookupA r k

/-- The local-files loop of `POST /api/sync`: every local path is pushed;
with a sha from the remote enumeration it is an update, otherwise a create. -/
def stageLocal (localFiles remote : List (Chars × Chars)) : List SyncOp :=
  localFiles.map (fun pc =>
    match lookupA remote pc.1 with
    | some sha => SyncOp.update pc.1 pc.2 sha
    | none => SyncOp.create pc.1 pc.2)

/-- The delete loop of `POST /api/sync`: every remote path with no local
counterpart is deleted, tagged with its enumerated sha. -/
def stageDeletes (localFiles remote : List (Chars × Chars)) : List SyncOp :=
  (remote.filter (fun ps => !(lookupA localFiles ps.1).isSome)).map
    (fun ps => SyncOp.del ps.1 ps.2)

/-- All remote operations of one sync pass, in execution order. -/
def syncOps (localFiles remote : List (Chars × Chars)) : List SyncOp :=
  stageLocal localFiles remote ++ stageDeletes localFiles remote

/-- The `results` summary of a pass in which every call succeeded. -/
structure SyncSummary where
  created : List Chars
  updated : List Chars
  deleted : List Chars
deriving DecidableEq, Repr

def syncPass (localFiles remote : List (Chars × Chars)) : SyncSummary :=
  { created := (syncOps localFiles remote).filterMap (fun op =>
      match op with | .create p _ => some p | _ => none)
  , updated := (syncOps localFiles remote).filterMap (fun op =>
      match op with | .update p _ _ => some p | _ => none)
  , deleted := (syncOps localFiles remote).filterMap (fun op =>
      match op with | .del p _ => some p | _ => none) }

/-- Version token of a stored blob, modelled by its content (the GitHub
content sha is a function of the content; only equality of tokens matters). -/
def shaOf (content : Chars) : Chars := content

/-- The remote tree after a pass in which every staged operation succeeded:
creates and updates store every local file, deletes remove the rest. -/
def applyPass (localFiles : List (Chars × Chars)) : List (Chars × Chars) :=
  localFiles.map (fun pc => (pc.1, shaOf pc.2))

/-- The hard-coded fallback of `process.env.SYNC_SECRET || 'life-os-sync-2026'`. -/
def defaultSecret : Chars :=
  ['l','i','f','e','-','o','s','-','s','y','n','c','-','2','0','2','6']

def effectiveSecret (env : Option Chars) : Chars := jsOrStr env defaultSecret

def bearerChars : Chars := ['B','e','a','r','e','r',' ']

/-- JavaScript `s.replace(pat, '')` with a string pattern: remove the first
occurrence only. -/
def replaceFirst (pat : Chars) : Chars → Chars
  | [] => []
  | c :: r =>
    if pat.isPrefixOf (c :: r) then (c :: r).drop pat.length
    else c :: replaceFirst pat r

/-- The authorization check of `POST /api/sync`:
`authHeader?.replace('Bearer ', '') === SYNC_SECRET`. -/
def syncAuthorized (env : Option Chars) (authHeader : Option Chars) : Bool :=
  match authHeader with
  | none => false
  | some h => replaceFirst bearerChars h == effectiveSecret env

inductive SyncResp where
  | unauthorized
  | noToken
  | summary (s : SyncSummary)
deriving DecidableEq, Repr

/-- The `POST /api/sync` pipeline: secret check, then token check, then the
enumeration-driven pass. The local and remote trees are arguments, so the
handler's value depends on them only after authorization succeeds. -/
def syncPOST (env authHeader ghPat : Option Chars)
    (localFiles remote : List (Chars × Chars)) : SyncResp :=
  if !(syncAuthorized env authHeader) then .unauthorized
  else if (ghPat.getD []).isEmpty then .noToken
  else .summary (syncPass localFiles remote)

/-! ### Paths and the documents CRUD (`src/app/api/documents/...`) -/

abbrev Seg := Chars

/-- An absolute filesystem path as a list of segments. -/
abbrev AbsPath := List Seg

/-- Split on a separator character; like JavaScript `split`, never `[]`. -/
def splitOnChar (sep : Char) : Chars → List Chars
  | [] => [[]]
  | c :: r =>
    if c = sep then [] :: splitOnChar sep r
    else
      match splitOnChar sep r with
      | [] => [[c]]
      | h :: t => (c :: h) :: t

def splitSlash : Chars → List Seg := splitOnChar '/'

/-- Segment-level normalization done by Node's `path.join`/`path.resolve`:
empty and `.` segments vanish, `..` pops (and is ignored at the root). -/
def normSegs (acc : AbsPath) : List Seg → AbsPath
  | [] => acc
  | s :: r =>
    if s = [] ∨ s = ['.'] then normSegs acc r
    else if s = ['.', '.'] then normSegs acc.dropLast r
    else normSegs (acc ++ [s]) r

/-- Render an absolute path the way Node prints it (`/a/b/c`). -/
def renderAbs (p : AbsPath) : Chars :=
  p.foldl (fun acc s => acc ++ '/' :: s) []

def mdExt : Chars := ['.', 'm', 'd']

/-- `slug.join('/')`. -/
def joinSlash : List Seg → Chars
  | [] => []
  | [s] => s
  | s :: r => s ++ '/' :: joinSlash r

/-- `path.resolve(path.join(BRAIN_DIR, slugStr + '.md'))` with `root` the
resolved `BRAIN_DIR`. -/
def docFilePath (root : AbsPath) (slugStr : Chars) : AbsPath :=
  normSegs [] (root ++ splitSlash (slugStr ++ mdExt))

/-- The handlers' escape check:
`resolvedPath.startsWith(path.resolve(BRAIN_DIR))` — a string prefix test on
the rendered paths. -/
def insideRoot (root : AbsPath) (p : AbsPath) : Bool :=
  (renderAbs root).isPrefixOf (renderAbs p)

/-- The document tree: file contents by absolute path, plus the set of
directories present (observed by `readdirSync`/`rmdirSync`). -/
structure FsState where
  files : List (AbsPath × Chars)
  dirs : List AbsPath
deriving DecidableEq, Repr

def lookupFile (files : List (AbsPath × Chars)) (p : AbsPath) : Option Chars :=
  match files with
  | [] => none
  | (q, c) :: r => if q = p then some c else lookupFile r p

/-- `fs.writeFileSync`: overwrite or append the entry. -/
def setFile (files : List (AbsPath × Chars)) (p : AbsPath) (c : Chars) :
    List (AbsPath × Chars) :=
  match files with
  | [] => [(p, c)]
  | (q, v) :: r => if q = p then (p, c) :: r else (q, v) :: setFile r p c

inductive GetResult where
  | invalidPath
  | notFound
  | ok (meta : FMeta) (body : Chars)
deriving DecidableEq, Repr

/-- `GET /api/documents/[...slug]`: path check, existence check, then parse. -/
def routeGET (root : AbsPath) (slugSegs : List Seg) (st : FsState) : GetResult :=
  let fp := docFilePath root (joinSlash slugSegs)
  if !(insideRoot root fp) then .invalidPath
  else
    match lookupFile st.files fp with
    | none => .notFound
    | some content => .ok (parseFrontmatter content).1 (parseFrontmatter content).2

inductive ApiResult where
  | badRequest
  | invalidPath
  | notFound
  | ok
deriving DecidableEq, Repr

/-- `PUT /api/documents/[...slug]`: field guard, path check, existence check,
then overwrite with the re-serialized document. -/
def routePUT (root : AbsPath) (slugSegs : List Seg) (title : Chars)
    (typ : Option Chars) (tags : Option (List Chars)) (content : Chars)
    (date : Option Chars) (today : Chars) (st : FsState) : ApiResult × FsState :=
  if title.isEmpty || content.isEmpty then (.badRequest, st)
  else
    let fp := docFilePath root (joinSlash slugSegs)
    if !(insideRoot root fp) then (.invalidPath, st)
    else if !(lookupFile st.files fp).isSome then (.notFound, st)
    else (.ok, ⟨setFile st.files fp
      (serializeDocAPI title date typ tags today content), st.dirs⟩)

/-- JavaScript `slug.replace(/\.\./g, '')`: delete every (leftmost,
non-overlapping) occurrence of `..`. -/
def removeDotDot : Chars → Chars
  | [] => []
  | '.' :: '.' :: r => removeDotDot r
  | c :: r => c :: removeDotDot r

/-- JavaScript `s.replace(/^\/+/, '')`. -/
def stripLeadSlashes (l : Chars) : Chars := l.dropWhile (fun c => c = '/')

/-- Proper-descendant test between paths (segment-wise). -/
def properUnder (d p : AbsPath) : Bool := d.isPrefixOf p && !(d == p)

/-- Whether `readdirSync(d)` would return any entry: some file or directory
strictly below `d` survives. -/
def dirHasEntries (files : List (AbsPath × Chars)) (dirs : List AbsPath)
    (d : AbsPath) : Bool :=
  files.any (fun f => properUnder d f.1) || dirs.any (fun p => properUnder d p)

/-- `DELETE /api/documents`: sanitize the slug, path check, existence check,
unlink, then remove the immediate parent directory if non-root and empty. -/
def routeDELETE (root : AbsPath) (slug : Chars) (st : FsState) :
    ApiResult × FsState :=
  let s := stripLeadSlashes (removeDotDot slug)
  let fp := docFilePath root s
  if !(insideRoot root fp) then (.invalidPath, st)
  else if !(lookupFile st.files fp).isSome then (.notFound, st)
  else
    let files' := st.files.filter (fun f => !(f.1 == fp))
    let d := fp.dropLast
    if d ≠ root ∧ dirHasEntries files' st.dirs d = false then
      (.ok, ⟨files', st.dirs.filter (fun p => !(p == d))⟩)
    else
      (.ok, ⟨files', st.dirs⟩)

/-! ### Document creation (`POST /api/documents` in
`src/app/api/documents/route.ts`) -/

def isLowerAlnum (c : Char) : Bool :=
  ('a' ≤ c && c ≤ 'z') || ('0' ≤ c && c ≤ '9')

/-- Helper for `collapseRuns`: `inRun` records whether the previous
character already produced the hyphen for the current non-alphanumeric run. -/
def collapseAux (inRun : Bool) : Chars → Chars
  | [] => []
  | c :: r =>
    if isLowerAlnum c then c :: collapseAux false r
    else if inRun then collapseAux true r
    else '-' :: collapseAux true r

/-- `replace(/[^a-z0-9]+/g, '-')`: collapse each run of other characters to
one hyphen. -/
def collapseRuns (l : Chars) : Chars := collapseAux false l

/-- `replace(/^-|-$/g, '')`: one leading and one trailing hyphen. -/
def dropOneLeadDash : Chars → Chars
  | '-' :: r => r
  | l => l

def dropOneTrailDash (l : Chars) : Chars :=
  match l.reverse with
  | '-' :: r => r.reverse
  | _ => l

/-- `generateSlug` from `src/app/api/documents/route.ts`, modelled for ASCII
titles (on ASCII, NFD normalization is the identity, there are no combining
marks to strip, and `toLowerCase` is the ASCII lowering). -/
def generateSlug (title typ : Chars) : Chars :=
  let core := dropOneTrailDash (dropOneLeadDash (collapseRuns (title.map Char.toLower)))
  typ ++ 's' :: '/' :: core

inductive CreateResult where
  | badRequest
  | conflict (slug : Chars)
  | created (slug : Chars)
deriving DecidableEq, Repr

/-- All nonempty prefixes of a path, innermost last (`mkdirSync` recursive). -/
def dirChain (p : AbsPath) : List AbsPath :=
  (List.range p.length).map (fun i => p.take (i + 1))

def addDirs (dirs : List AbsPath) (d : AbsPath) : List AbsPath :=
  dirs ++ (dirChain d).filter (fun q => !(dirs.any (fun x => x == q)))

/-- `POST /api/documents`: guard, slug computation, `mkdirSync` (before the
existence check, as in the source), existence check, then write. -/
def routePOSTcreate (root : AbsPath) (title : Chars) (typ : Option Chars)
    (tags : Option (List Chars)) (content : Chars) (today : Chars)
    (st : FsState) : CreateResult × FsState :=
  if title.isEmpty || content.isEmpty then (.badRequest, st)
  else
    let slug := generateSlug title (jsOrStr typ noteChars)
    let fp := docFilePath root slug
    let dirs1 := addDirs st.dirs fp.dropLast
    if (lookupFile st.files fp).isSome then (.conflict slug, ⟨st.files, dirs1⟩)
    else
      (.created slug,
       ⟨setFile st.files fp
          (serializeDoc title today (jsOrStr typ noteChars) (tags.getD []) content),
        dirs1⟩)

/-! ### Listing sort (`getAllDocuments` in `src/lib/documents.ts`) -/

/-- The listing metadata relevant to the sort. -/
structure DocMeta where
  title : Chars
  date : Chars
deriving DecidableEq, Repr

def digitVal (c : Char) : Int := Int.ofNat (c.toNat - 48)

/-- `new Date(s).getTime()` modelled on ISO `YYYY-MM-DD` strings by a
strictly monotone encoding; every other string is NaN, modelled `none`. -/
def jsDateVal (d : Chars) : Option Int :=
  match d with
  | [y1, y2, y3, y4, '-', m1, m2, '-', d1, d2] =>
    if isDigit y1 && isDigit y2 && isDigit y3 && isDigit y4 &&
       isDigit m1 && isDigit m2 && isDigit d1 && isDigit d2 then
      some ((((digitVal y1 * 10 + digitVal y2) * 10 + digitVal y3) * 10 + digitVal y4) * 10000
        + (digitVal m1 * 10 + digitVal m2) * 100 + (digitVal d1 * 10 + digitVal d2))
    else none
  | _ => none

/-- The sort comparator of `getAllDocuments`; `none` is a NaN comparison
value. -/
def sortCompare (a b : DocMeta) : Option Int :=
  if a.date.isEmpty then some 1
  else if b.date.isEmpty then some (-1)
  else
    match jsDateVal b.date, jsDateVal a.date with
    | some x, some y => some (x - y)
    | _, _ => none

/-- ECMAScript `SortCompare`: a NaN comparator value is taken as `+0`. -/
def cmpES (a b : DocMeta) : Int := (sortCompare a b).getD 0

def docLe (a b : DocMeta) : Bool := decide (cmpES a b ≤ 0)

/-- `documents.sort(comparator)` modelled as a stable sort over the
comparator (ECMAScript's `Array.prototype.sort` is specified stable since
ES2019; a stable insertion sort realizes that contract). -/
def sortDocs (l : List DocMeta) : List DocMeta :=
  List.insertionSort (fun a b => docLe a b = true) l

/-- A file with no header at all, for the leniency witness. -/
def exNoHeader : Chars :=
  ['J','u','s','t',' ','s','o','m','e',' ','t','e','x','t']

/-- The document `---\ntags: [#a]\n---\nx`, whose tag keeps its `#`. -/
def exC9 : Chars :=
  ['-','-','-','\n','t','a','g','s',':',' ','[','#','a',']','\n','-','-','-','\n','x']

/-! ## General lemmas about the character-list utilities -/

theorem head?_not_of_dropWhile {α : Type} (p : α → Bool) (l : List α) (c : α)
    (h : (l.dropWhile p).head? = some c) : p c = false := by
  induction l with
  | nil => simp [List.dropWhile] at h
  | cons a r ih =>
    rw [List.dropWhile_cons] at h
    by_cases hp : p a = true
    · exact ih (by rwa [if_pos hp] at h)
    · rw [if_neg hp] at h
      simp only [List.head?_cons, Option.some.injEq] at h
      subst h
      exact Bool.eq_false_iff.mpr hp

theorem dropWhile_eq_self_of_head? {α : Type} (p : α → Bool) (l : List α)
    (h : ∀ c, l.head? = some c → p c = false) : l.dropWhile p = l := by
  cases l with
  | nil => rfl
  | cons a r =>
    rw [List.dropWhile_cons, if_neg]
    simp [h a rfl]

theorem head?_eq_of_isPre {α : Type} {l₁ l₂ : List α} (h : l₁ <+: l₂)
    (hne : l₁ ≠ []) : l₂.head? = l₁.head? := by
  obtain ⟨t, rfl⟩ := h
  cases l₁ with
  | nil => exact absurd rfl hne
  | cons a r => rfl

theorem trimWs_head? (l : Chars) (c : Char) (h : (trimWs l).head? = some c) :
    isWs c = false := by
  have hpre : trimWs l <+: l.dropWhile isWs :=
    List.rdropWhile_prefix isWs (l.dropWhile isWs)
  have hne : trimWs l ≠ [] := by
    intro he
    rw [he] at h
    simp at h
  have heq := head?_eq_of_isPre hpre hne
  exact head?_not_of_dropWhile isWs l c (heq ▸ h)

theorem dropWhile_trimWs (l : Chars) : (trimWs l).dropWhile isWs = trimWs l :=
  dropWhile_eq_self_of_head? _ _ (fun c h => trimWs_head? l c h)

theorem trimWs_idem (l : Chars) : trimWs (trimWs l) = trimWs l := by
  show ((trimWs l).dropWhile isWs).rdropWhile isWs = trimWs l
  rw [dropWhile_trimWs]
  exact List.rdropWhile_idempotent isWs (l.dropWhile isWs)

theorem trimWs_cons_ws (c : Char) (l : Chars) (h : isWs c = true) :
    trimWs (c :: l) = trimWs l := by
  show ((c :: l).dropWhile isWs).rdropWhile isWs = _
  rw [List.dropWhile_cons, if_pos h]
  rfl

theorem trimWs_length_le (l : Chars) : (trimWs l).length ≤ l.length :=
  le_trans (List.rdropWhile_prefix isWs (l.dropWhile isWs)).length_le
    (List.dropWhile_suffix isWs).length_le

theorem mem_cleanTags (raw t : Chars) (h : t ∈ cleanTags raw) :
    trimWs t = t ∧ t ≠ [] := by
  unfold cleanTags at h
  rw [List.mem_filter] at h
  obtain ⟨h1, h2⟩ := h
  rw [List.mem_map] at h1
  obtain ⟨s, _, rfl⟩ := h1
  exact ⟨trimWs_idem s, by simpa using h2⟩

theorem tags_of_parse (content : Chars) (ts : List Chars)
    (h : (parseFrontmatter content).1.tags = some ts) :
    ∃ raw, ts = cleanTags raw := by
  unfold parseFrontmatter at h
  cases hs : splitFM content with
  | none => rw [hs] at h; simp [FMeta.empty] at h
  | some pr =>
    obtain ⟨fm, body⟩ := pr
    rw [hs] at h
    dsimp only at h
    rw [Option.map_eq_some'] at h
    obtain ⟨raw, _, hc⟩ := h
    exact ⟨raw, hc.symm⟩

/-! ## C5 — leniency of `parseFrontmatter` -/

/-- C5: for every input that does not begin with a `---` line (it does not
start with `---\n`), `parseFrontmatter` returns empty fields and a body equal
to the full input. The function is total by construction, so it never
raises. -/
theorem c5_parse_no_header (content : Chars)
    (h : openDelim.isPrefixOf content = false) :
    parseFrontmatter content = (FMeta.empty, content) := by
  unfold parseFrontmatter splitFM
  simp [h]

/-- Witness for C5 at the spec's own example, `Just some text`. -/
theorem c5_parse_no_header_witness :
    openDelim.isPrefixOf exNoHeader = false ∧
      parseFrontmatter exNoHeader = (FMeta.empty, exNoHeader) :=
  ⟨by decide, c5_parse_no_header exNoHeader (by decide)⟩

/-! ## C9 — tags extracted by `parseFrontmatter` -/

/-- C9 counterexample: parsing `---\ntags: [#a]\n---\nx` returns the entry
`#a` with its leading `#` intact (`dropLeadHash` would still remove one), so
parse does not remove a leading `#` from tag entries — only the serializer
(`sanitizeTag`) does. -/
theorem c9_counterexample :
    (parseFrontmatter exC9).1.tags = some [['#', 'a']] ∧
      dropLeadHash ['#', 'a'] ≠ ['#', 'a'] := by
  constructor
  · decide
  · decide

/-- C9 (amended): every tag entry returned by `parseFrontmatter` is
whitespace-trimmed (a fixed point of `trimWs`) and nonempty; a leading `#`
is not removed by the parser (it is stripped on the serialization side). -/
theorem c9_tags_trimmed (content : Chars) (ts : List Chars)
    (h : (parseFrontmatter content).1.tags = some ts) :
    ∀ t ∈ ts, trimWs t = t ∧ t ≠ [] := by
  obtain ⟨raw, rfl⟩ := tags_of_parse content ts h
  exact fun t ht => mem_cleanTags raw t ht

/-- Witness for C9 (amended) at the counterexample document. -/
theorem c9_tags_trimmed_witness :
    (parseFrontmatter exC9).1.tags = some [['#', 'a']] ∧
      (∀ t ∈ [['#', 'a']], trimWs t = t ∧ t ≠ []) :=
  ⟨by decide, c9_tags_trimmed exC9 [['#', 'a']] (by decide)⟩

/-! ## The leftmost-match scanner -/

theorem scanWith_cons {α : Type} (f : Chars → Option α) (c : Char) (r : Chars) :
    scanWith f (c :: r) =
      match f (c :: r) with
      | some v => some v
      | none => scanWith f r := rfl

theorem scanWith_cons_none {α : Type} (f : Chars → Option α) (c : Char)
    (r : Chars) (h : f (c :: r) = none) : scanWith f (c :: r) = scanWith f r := by
  rw [scanWith_cons, h]

theorem scanWith_some_of_head {α : Type} (f : Chars → Option α) (l : Chars)
    (v : α) (h : f l = some v) (hne : l ≠ []) : scanWith f l = some v := by
  cases l with
  | nil => exact absurd rfl hne
  | cons c r => rw [scanWith_cons, h]

theorem isPre_self_append (l t : Chars) : l.isPrefixOf (l ++ t) = true :=
  List.isPrefixOf_iff_prefix.mpr (List.prefix_append l t)

/-- Core of the barrier argument: a keyword that avoids the barrier
character and owns a character missing from `B` cannot match anywhere in
`B ++ bar :: rest` before the barrier — in fact not even at the junction. -/
theorem not_isPre_barrier (kw B rest : Chars) (bar k : Char)
    (hbar : bar ∉ kw) (hk : k ∈ kw) (hkB : k ∉ B) :
    kw.isPrefixOf (B ++ bar :: rest) = false := by
  by_contra hcon
  rw [Bool.not_eq_false, List.isPrefixOf_iff_prefix] at hcon
  by_cases hlen : kw.length ≤ B.length
  · have hkw : kw = (B ++ bar :: rest).take kw.length :=
      List.prefix_iff_eq_take.mp hcon
    rw [List.take_append_eq_append_take, Nat.sub_eq_zero_of_le hlen] at hkw
    simp only [List.take_zero, List.append_nil] at hkw
    exact hkB (List.take_subset _ _ (hkw ▸ hk))
  · push_neg at hlen
    obtain ⟨t, ht⟩ := hcon
    have htake : kw.take (B.length + 1) = B ++ [bar] := by
      have h1 : kw.take (B.length + 1) = (kw ++ t).take (B.length + 1) := by
        rw [List.take_append_eq_append_take, Nat.sub_eq_zero_of_le hlen]
        simp
      rw [h1, ht, List.take_append_eq_append_take,
        List.take_of_length_le (Nat.le_succ B.length),
        Nat.add_sub_cancel_left]
      rfl
    have : bar ∈ kw.take (B.length + 1) := by rw [htake]; simp
    exact hbar (List.take_subset _ _ this)

/-- Scanning for `kw` skips a region `A` closed off by a barrier character. -/
theorem scanWith_barrier {α : Type} (f : Chars → Option α) (kw : Chars)
    (hf : ∀ l, kw.isPrefixOf l = false → f l = none)
    (A rest : Chars) (bar k : Char)
    (hbar : bar ∉ kw) (hk : k ∈ kw) (hkA : k ∉ A) :
    scanWith f (A ++ bar :: rest) = scanWith f (bar :: rest) := by
  induction A with
  | nil => rfl
  | cons c A ih =>
    have hnoA : k ∉ A := fun hx => hkA (List.mem_cons_of_mem c hx)
    have hne : f (c :: (A ++ bar :: rest)) = none :=
      hf _ (not_isPre_barrier kw (c :: A) rest bar k hbar hk hkA)
    rw [List.cons_append, scanWith_cons_none f c _ hne]
    exact ih hnoA

/-- Scanning for `kw` steps over a single character different from the
keyword's head. -/
theorem scanWith_skip {α : Type} (f : Chars → Option α) (kw : Chars)
    (hf : ∀ l, kw.isPrefixOf l = false → f l = none)
    (k0 : Char) (kw' : Chars) (hkw : kw = k0 :: kw')
    (c : Char) (rest : Chars) (hc : c ≠ k0) :
    scanWith f (c :: rest) = scanWith f rest := by
  apply scanWith_cons_none
  apply hf
  subst hkw
  have hb : (k0 == c) = false := beq_eq_false_iff_ne.mpr (Ne.symm hc)
  simp [List.isPrefixOf, hb]

theorem tryTok_none (kw l : Chars) (h : kw.isPrefixOf l = false) :
    tryTok kw l = none := by
  unfold tryTok
  simp [h]

theorem tryTitle_none (l : Chars) (h : kwTitle.isPrefixOf l = false) :
    tryTitle l = none := by
  unfold tryTitle
  simp [h]

theorem tryTags_none (l : Chars) (h : kwTags.isPrefixOf l = false) :
    tryTags l = none := by
  unfold tryTags
  simp [h]

theorem takeWhile_append_all {α : Type} (p : α → Bool) (A B : List α)
    (h : ∀ c ∈ A, p c = true) : (A ++ B).takeWhile p = A ++ B.takeWhile p := by
  induction A with
  | nil => rfl
  | cons a r ih =>
    rw [List.cons_append, List.takeWhile_cons, if_pos (h a (by simp)),
      ih (fun c hc => h c (by simp [hc]))]
    rfl

theorem dropWhile_append_all {α : Type} (p : α → Bool) (A B : List α)
    (h : ∀ c ∈ A, p c = true) : (A ++ B).dropWhile p = B.dropWhile p := by
  induction A with
  | nil => rfl
  | cons a r ih =>
    rw [List.cons_append, List.dropWhile_cons, if_pos (h a (by simp))]
    exact ih (fun c hc => h c (by simp [hc]))

theorem dropWhile_cons_false {α : Type} (p : α → Bool) (c : α) (r : List α)
    (h : p c = false) : (c :: r).dropWhile p = c :: r := by
  rw [List.dropWhile_cons, if_neg (by simp [h])]

theorem takeWhile_cons_false {α : Type} (p : α → Bool) (c : α) (r : List α)
    (h : p c = false) : (c :: r).takeWhile p = [] := by
  rw [List.takeWhile_cons, if_neg (by simp [h])]

theorem takeWhile_ws_nil (tail : Chars)
    (htail : ∀ c, tail.head? = some c → isWs c = true) :
    tail.takeWhile (fun c => !(isWs c)) = [] := by
  cases tail with
  | nil => rfl
  | cons c r => exact takeWhile_cons_false _ c r (by simp [htail c rfl])

/-- A successful `kw\s*(\S+)` match right at the generated `kw value` text. -/
theorem tryTok_at_target (kw D tail : Chars) (hD : D ≠ [])
    (hDw : ∀ c ∈ D, isWs c = false)
    (htail : ∀ c, tail.head? = some c → isWs c = true) :
    tryTok kw (kw ++ ' ' :: (D ++ tail)) = some D := by
  obtain ⟨d, D', rfl⟩ : ∃ d D', D = d :: D' := by
    cases D with
    | nil => exact absurd rfl hD
    | cons d D' => exact ⟨d, D', rfl⟩
  have h1 : (kw ++ ' ' :: (d :: D' ++ tail)).drop kw.length = ' ' :: (d :: D' ++ tail) :=
    List.drop_left kw _
  have h2 : (' ' :: (d :: D' ++ tail)).dropWhile isWs = d :: (D' ++ tail) := by
    rw [List.dropWhile_cons, if_pos (by decide), List.cons_append]
    exact dropWhile_cons_false isWs d _ (hDw d (by simp))
  have h3 : (d :: (D' ++ tail)).takeWhile (fun c => !(isWs c)) = d :: D' := by
    have hall : ∀ c ∈ d :: D', (!(isWs c)) = true := by
      intro c hc
      simp [hDw c hc]
    calc (d :: (D' ++ tail)).takeWhile (fun c => !(isWs c))
        = ((d :: D') ++ tail).takeWhile (fun c => !(isWs c)) := by rw [List.cons_append]
      _ = (d :: D') ++ tail.takeWhile (fun c => !(isWs c)) :=
          takeWhile_append_all _ _ _ hall
      _ = d :: D' := by rw [takeWhile_ws_nil tail htail, List.append_nil]
  unfold tryTok
  rw [if_pos (isPre_self_append kw (' ' :: (d :: D' ++ tail)))]
  dsimp only
  rw [h1, h2, h3]
  rfl

/-- A successful `title:\s*"([^"]+)"` match at the generated title line. -/
theorem tryTitle_at_target (T rest : Chars) (hT : T ≠ []) (hq : '"' ∉ T) :
    tryTitle (kwTitle ++ ' ' :: '"' :: (T ++ '"' :: rest)) = some T := by
  obtain ⟨a, T', rfl⟩ : ∃ a T', T = a :: T' := by
    cases T with
    | nil => exact absurd rfl hT
    | cons a T' => exact ⟨a, T', rfl⟩
  have h1 : (kwTitle ++ ' ' :: '"' :: (a :: T' ++ '"' :: rest)).drop 6 =
      ' ' :: '"' :: (a :: T' ++ '"' :: rest) :=
    List.drop_left kwTitle _
  have h2 : (' ' :: '"' :: (a :: T' ++ '"' :: rest)).dropWhile isWs =
      '"' :: (a :: T' ++ '"' :: rest) := by
    rw [List.dropWhile_cons, if_pos (by decide)]
    exact dropWhile_cons_false isWs '"' _ (by decide)
  have hall : ∀ c ∈ a :: T', (fun c => decide (c ≠ '"')) c = true := by
    intro c hc
    simp only [decide_eq_true_eq]
    intro he
    exact hq (he ▸ hc)
  have h3 : (a :: T' ++ '"' :: rest).takeWhile (fun c => decide (c ≠ '"')) = a :: T' := by
    rw [takeWhile_append_all _ _ _ hall, takeWhile_cons_false _ '"' rest (by simp),
      List.append_nil]
  have h4 : (a :: T' ++ '"' :: rest).dropWhile (fun c => decide (c ≠ '"')) = '"' :: rest := by
    rw [dropWhile_append_all _ _ _ hall]
    exact dropWhile_cons_false _ '"' rest (by simp)
  unfold tryTitle
  rw [if_pos (isPre_self_append kwTitle (' ' :: '"' :: (a :: T' ++ '"' :: rest)))]
  simp only [h1, h2, h3, h4]
  simp

/-- A successful `tags:\s*\[([^\]]*)\]` match at the generated tags line. -/
theorem tryTags_at_target (J rest : Chars) (hJ : ']' ∉ J) :
    tryTags (kwTags ++ ' ' :: '[' :: (J ++ ']' :: rest)) = some J := by
  have h1 : (kwTags ++ ' ' :: '[' :: (J ++ ']' :: rest)).drop 5 =
      ' ' :: '[' :: (J ++ ']' :: rest) :=
    List.drop_left kwTags _
  have h2 : (' ' :: '[' :: (J ++ ']' :: rest)).dropWhile isWs =
      '[' :: (J ++ ']' :: rest) := by
    rw [List.dropWhile_cons, if_pos (by decide)]
    exact dropWhile_cons_false isWs '[' _ (by decide)
  have hall : ∀ c ∈ J, (fun c => decide (c ≠ ']')) c = true := by
    intro c hc
    simp only [decide_eq_true_eq]
    intro he
    exact hJ (he ▸ hc)
  have h3 : (J ++ ']' :: rest).takeWhile (fun c => decide (c ≠ ']')) = J := by
    rw [takeWhile_append_all _ _ _ hall, takeWhile_cons_false _ ']' rest (by simp),
      List.append_nil]
  have h4 : (J ++ ']' :: rest).dropWhile (fun c => decide (c ≠ ']')) = ']' :: rest := by
    rw [dropWhile_append_all _ _ _ hall]
    exact dropWhile_cons_false _ ']' rest (by simp)
  unfold tryTags
  rw [if_pos (isPre_self_append kwTags (' ' :: '[' :: (J ++ ']' :: rest)))]
  simp only [h1, h2, h3, h4]

/-! ## Character-class facts for the validity predicates -/

theorem ws_false_of_digit (c : Char) (h : isDigit c = true) : isWs c = false := by
  by_contra hc
  rw [Bool.not_eq_false] at hc
  unfold isWs at hc
  simp only [Bool.or_eq_true, beq_iff_eq, or_assoc] at hc
  rcases hc with h' | h' | h' | h' | h' | h' <;> subst h' <;> exact absurd h (by decide)

theorem validDate_chars (D : Chars) (hD : ValidDate D) :
    (∀ c ∈ D, isWs c = false) ∧ 'y' ∉ D ∧ 'g' ∉ D ∧ '\n' ∉ D := by
  refine ⟨?_, ?_, ?_, ?_⟩
  · intro c hc
    rcases hD.2 c hc with h | h
    · exact ws_false_of_digit c h
    · subst h; decide
  · intro hy
    rcases hD.2 'y' hy with h | h <;> exact absurd h (by decide)
  · intro hg
    rcases hD.2 'g' hg with h | h <;> exact absurd h (by decide)
  · intro hn
    rcases hD.2 '\n' hn with h | h <;> exact absurd h (by decide)

theorem validType_facts (Y : Chars) (hY : ValidType Y) :
    Y ≠ [] ∧ (∀ c ∈ Y, isWs c = false) ∧ 'g' ∉ Y ∧ '\n' ∉ Y := by
  have hY' : Y = ['c','o','n','c','e','p','t'] ∨ Y = ['d','e','c','i','s','i','o','n'] ∨
      Y = ['j','o','u','r','n','a','l'] ∨ Y = ['n','o','t','e'] ∨
      Y = ['r','e','f','e','r','e','n','c','e'] := by
    simpa [ValidType, docTypes] using hY
  rcases hY' with rfl | rfl | rfl | rfl | rfl <;>
    exact ⟨by decide, by decide, by decide, by decide⟩

theorem validTag_facts (t : Chars) (h : ValidTag t) :
    trimWs t = t ∧ t.isEmpty = false := by
  obtain ⟨hne, hsan, -, -, -⟩ := h
  unfold sanitizeTag at hsan
  cases t with
  | nil => exact absurd rfl hne
  | cons c r =>
    by_cases hc : c = '#'
    · exfalso
      subst hc
      rw [show dropLeadHash ('#' :: r) = r from by simp [dropLeadHash]] at hsan
      have hlen := trimWs_length_le r
      rw [hsan] at hlen
      simp at hlen
    · rw [show dropLeadHash (c :: r) = c :: r from by simp [dropLeadHash, hc]] at hsan
      exact ⟨hsan, rfl⟩

theorem splitComma_cons (c : Char) (r : Chars) :
    splitComma (c :: r) =
      if c = ',' then [] :: splitComma r
      else
        match splitComma r with
        | [] => [[c]]
        | h :: t => (c :: h) :: t := rfl

theorem splitComma_no_comma (t : Chars) (h : ',' ∉ t) : splitComma t = [t] := by
  induction t with
  | nil => rfl
  | cons c r ih =>
    have hc : ¬c = ',' := fun he => h (he ▸ List.mem_cons_self c r)
    rw [splitComma_cons, if_neg hc, ih (fun hm => h (List.mem_cons_of_mem c hm))]

theorem splitComma_append (t rest : Chars) (h : ',' ∉ t) :
    splitComma (t ++ ',' :: rest) = t :: splitComma rest := by
  induction t with
  | nil =>
    rw [List.nil_append, splitComma_cons, if_pos rfl]
  | cons c r ih =>
    have hc : ¬c = ',' := fun he => h (he ▸ List.mem_cons_self c r)
    rw [List.cons_append, splitComma_cons, if_neg hc,
      ih (fun hm => h (List.mem_cons_of_mem c hm))]

theorem splitComma_ne_nil (t : Chars) : splitComma t ≠ [] := by
  cases t with
  | nil => simp [splitComma]
  | cons c r =>
    rw [splitComma_cons]
    by_cases hc : c = ','
    · simp [hc]
    · rw [if_neg hc]
      cases hx : splitComma r <;> simp

theorem not_mem_joinCS (ts : List Chars) (c : Char) (hc1 : c ≠ ',') (hc2 : c ≠ ' ')
    (h : ∀ t ∈ ts, c ∉ t) : c ∉ joinCS ts := by
  induction ts with
  | nil => simp [joinCS]
  | cons t ts2 ih =>
    cases ts2 with
    | nil => simpa [joinCS] using h t (by simp)
    | cons t2 ts3 =>
      rw [show joinCS (t :: t2 :: ts3) = t ++ ',' :: ' ' :: joinCS (t2 :: ts3) from rfl]
      intro hmem
      rw [List.mem_append] at hmem
      rcases hmem with hm | hm
      · exact h t (by simp) hm
      · simp only [List.mem_cons] at hm
        rcases hm with rfl | rfl | hm
        · exact hc1 rfl
        · exact hc2 rfl
        · exact ih (fun u hu => h u (List.mem_cons_of_mem _ hu)) hm

theorem cleanTags_joinCS (ts : List Chars)
    (h : ∀ t ∈ ts, trimWs t = t ∧ t.isEmpty = false ∧ ',' ∉ t) :
    cleanTags (joinCS ts) = ts := by
  induction ts with
  | nil => rfl
  | cons t ts2 ih =>
    cases ts2 with
    | nil =>
      obtain ⟨htr, hne, hnc⟩ := h t (List.mem_cons_self t [])
      show cleanTags (joinCS [t]) = [t]
      unfold cleanTags
      rw [show joinCS [t] = t from rfl, splitComma_no_comma t hnc]
      simp [htr, hne]
    | cons t2 ts3 =>
      obtain ⟨htr, hne, hnc⟩ := h t (List.mem_cons_self _ _)
      have hrest : ∀ u ∈ t2 :: ts3, trimWs u = u ∧ u.isEmpty = false ∧ ',' ∉ u :=
        fun u hu => h u (List.mem_cons_of_mem t hu)
      obtain ⟨h2, tl2, hsplit⟩ : ∃ h2 tl2, splitComma (joinCS (t2 :: ts3)) = h2 :: tl2 := by
        cases hx : splitComma (joinCS (t2 :: ts3)) with
        | nil => exact absurd hx (splitComma_ne_nil _)
        | cons a b => exact ⟨a, b, rfl⟩
      have ihh := ih hrest
      unfold cleanTags at ihh ⊢
      rw [show joinCS (t :: t2 :: ts3) = t ++ ',' :: ' ' :: joinCS (t2 :: ts3) from rfl,
        splitComma_append t _ hnc, splitComma_cons, if_neg (by decide), hsplit]
      rw [hsplit] at ihh
      simp only [List.map_cons, List.filter_cons] at ihh ⊢
      rw [htr, show trimWs (' ' :: h2) = trimWs h2 from trimWs_cons_ws ' ' h2 (by decide)]
      simp only [hne, Bool.not_false, if_pos]
      rw [ihh]

theorem hasNlDash_cons_cons (a b : Char) (r : Chars) :
    hasNlDash (a :: b :: r) = ((a == '\n' && b == '-') || hasNlDash (b :: r)) := rfl

theorem hasNlDash_tail (c : Char) (r : Chars) (h : hasNlDash (c :: r) = false) :
    hasNlDash r = false := by
  cases r with
  | nil => rfl
  | cons b r2 =>
    rw [hasNlDash_cons_cons, Bool.or_eq_false_iff] at h
    exact h.2

theorem hasNlDash_of_no_nl (l : Chars) (h : '\n' ∉ l) : hasNlDash l = false := by
  induction l with
  | nil => rfl
  | cons a r ih =>
    cases r with
    | nil => rfl
    | cons b r2 =>
      rw [hasNlDash_cons_cons]
      have ha : (a == '\n') = false :=
        beq_eq_false_iff_ne.mpr (fun he => h (he ▸ List.mem_cons_self a _))
      rw [ha]
      simp only [Bool.false_and, Bool.false_or]
      exact ih (fun hm => h (List.mem_cons_of_mem a hm))

theorem hasNlDash_append_cons (A B : Chars) (hA : '\n' ∉ A)
    (hB : hasNlDash B = false) (hhd : ∀ b, B.head? = some b → b ≠ '-') :
    hasNlDash (A ++ '\n' :: B) = false := by
  induction A with
  | nil =>
    cases B with
    | nil => rfl
    | cons b r =>
      rw [List.nil_append, hasNlDash_cons_cons]
      have hb : (b == '-') = false := beq_eq_false_iff_ne.mpr (hhd b rfl)
      simp [hb, hB]
  | cons a A' ih =>
    rw [List.cons_append]
    obtain ⟨x, xs, hxx⟩ : ∃ x xs, A' ++ '\n' :: B = x :: xs := by
      cases hxc : A' ++ '\n' :: B with
      | nil => simp at hxc
      | cons x xs => exact ⟨x, xs, rfl⟩
    rw [hxx, hasNlDash_cons_cons]
    have ha : (a == '\n') = false :=
      beq_eq_false_iff_ne.mpr (fun he => hA (he ▸ List.mem_cons_self a A'))
    rw [ha]
    simp only [Bool.false_and, Bool.false_or]
    rw [← hxx]
    exact ih (fun hm => hA (List.mem_cons_of_mem a hm))

theorem findClose_cons (c : Char) (r : Chars) :
    findClose (c :: r) =
      if closeDelim.isPrefixOf (c :: r) then some 0
      else (findClose r).map (· + 1) := rfl

theorem findClose_at (hdr t : Chars) (hnd : hasNlDash hdr = false) :
    findClose (hdr ++ closeDelim ++ t) = some hdr.length := by
  induction hdr with
  | nil =>
    rw [List.nil_append]
    rw [show (closeDelim ++ t : Chars) = '\n' :: ('-' :: '-' :: '-' :: '\n' :: [] ++ t)
      from rfl]
    rw [findClose_cons, if_pos]
    · rfl
    · exact isPre_self_append closeDelim t
  | cons c h' ih =>
    have heq : (c :: h') ++ closeDelim ++ t = c :: (h' ++ closeDelim ++ t) := by simp
    rw [heq, findClose_cons, if_neg, ih (hasNlDash_tail c h' hnd)]
    · simp
    · intro hpre
      have hpre' : closeDelim.isPrefixOf (c :: (h' ++ closeDelim ++ t)) = true := hpre
      by_cases hc : c = '\n'
      · subst hc
        cases h' with
        | nil =>
          rw [show (([] : Chars) ++ closeDelim ++ t) = '\n' :: ('-' :: '-' :: '-' :: '\n' :: [] ++ t)
            from rfl] at hpre'
          simp [List.isPrefixOf, closeDelim] at hpre'
        | cons b r2 =>
          have hb : (b == '-') = false := by
            rw [hasNlDash_cons_cons, Bool.or_eq_false_iff] at hnd
            simpa using hnd.1
          rw [show ((b :: r2 : Chars) ++ closeDelim ++ t) = b :: (r2 ++ closeDelim ++ t)
            from by simp] at hpre'
          rw [show (closeDelim : Chars) = '\n' :: '-' :: '-' :: '-' :: '\n' :: [] from rfl]
            at hpre'
          simp [List.isPrefixOf] at hpre'
          exact absurd hpre'.1.symm (by simpa using hb)
      · have hc' : ('\n' == c) = false := beq_eq_false_iff_ne.mpr (Ne.symm hc)
        rw [show (closeDelim : Chars) = '\n' :: '-' :: '-' :: '-' :: '\n' :: [] from rfl]
          at hpre'
        simp [List.isPrefixOf, hc'] at hpre'

theorem sanitizeTags_eq_self (ts : List Chars) (h : ∀ t ∈ ts, ValidTag t) :
    sanitizeTags ts = ts := by
  unfold sanitizeTags
  induction ts with
  | nil => rfl
  | cons t r ih =>
    have ht := validTag_facts t (h t (List.mem_cons_self t r))
    have hs : sanitizeTag t = t := by
      have := (h t (List.mem_cons_self t r)).2.1
      exact this
    simp only [List.map_cons, List.filter_cons, hs, ht.2, Bool.not_false, if_pos]
    rw [ih (fun u hu => h u (List.mem_cons_of_mem t hu))]

/-! ## Locating the header block of a serialized document -/

theorem splitFM_at (hdr rest : Chars) (hnd : hasNlDash hdr = false) :
    splitFM (openDelim ++ (hdr ++ (closeDelim ++ rest))) = some (hdr, rest) := by
  unfold splitFM
  rw [if_pos (isPre_self_append openDelim _)]
  have hdrop : (openDelim ++ (hdr ++ (closeDelim ++ rest))).drop 4 =
      hdr ++ (closeDelim ++ rest) :=
    List.drop_left openDelim _
  rw [hdrop,
    show hdr ++ (closeDelim ++ rest) = hdr ++ closeDelim ++ rest from
      (List.append_assoc _ _ _).symm,
    findClose_at hdr rest hnd]
  have htake : (hdr ++ closeDelim ++ rest).take hdr.length = hdr := by
    rw [List.append_assoc]
    exact List.take_left hdr _
  have hdrop2 : (hdr ++ closeDelim ++ rest).drop (hdr.length + 5) = rest := by
    rw [List.append_assoc]
    rw [show ((hdr ++ (closeDelim ++ rest)).drop (hdr.length + 5) : Chars) =
      (closeDelim ++ rest).drop 5 from List.drop_append 5]
    exact List.drop_left closeDelim rest
  simp only [htake, hdrop2]

/-! ## Scanning the generated header for each field -/

theorem scanTitle_header (T rest : Chars) (hT : T ≠ []) (hq : '"' ∉ T) :
    scanWith tryTitle ((kwTitle ++ [' ']) ++ '"' :: (T ++ '"' :: rest)) = some T := by
  rw [show (kwTitle ++ [' ']) ++ '"' :: (T ++ '"' :: rest) =
    kwTitle ++ ' ' :: '"' :: (T ++ '"' :: rest) from by simp]
  exact scanWith_some_of_head _ _ _ (tryTitle_at_target T rest hT hq) (by simp [kwTitle])

theorem scanDate_header (T D restD : Chars) (hcol : ':' ∉ T)
    (hD : D ≠ []) (hDw : ∀ c ∈ D, isWs c = false) :
    scanWith (tryTok kwDate) ((kwTitle ++ [' ']) ++ '"' ::
      (T ++ '"' :: '\n' :: (kwDate ++ ' ' :: (D ++ '\n' :: restD)))) = some D := by
  have hf : ∀ l, kwDate.isPrefixOf l = false → tryTok kwDate l = none :=
    fun l => tryTok_none kwDate l
  rw [scanWith_barrier _ kwDate hf (kwTitle ++ [' ']) _ '"' 'd' (by decide) (by decide)
    (by decide)]
  rw [scanWith_skip _ kwDate hf 'd' ['a','t','e',':'] rfl '"' _ (by decide)]
  rw [scanWith_barrier _ kwDate hf T _ '"' ':' (by decide) (by decide) hcol]
  rw [scanWith_skip _ kwDate hf 'd' ['a','t','e',':'] rfl '"' _ (by decide)]
  rw [scanWith_skip _ kwDate hf 'd' ['a','t','e',':'] rfl '\n' _ (by decide)]
  exact scanWith_some_of_head _ _ _
    (tryTok_at_target kwDate D ('\n' :: restD) hD hDw (by rintro c ⟨rfl⟩; decide))
    (by simp [kwDate])

theorem scanType_header (T D Y restY : Chars) (hcol : ':' ∉ T)
    (hyD : 'y' ∉ D) (hY : Y ≠ []) (hYw : ∀ c ∈ Y, isWs c = false) :
    scanWith (tryTok kwType) ((kwTitle ++ [' ']) ++ '"' ::
      (T ++ '"' :: '\n' :: ((kwDate ++ ' ' :: D) ++ '\n' ::
        (kwType ++ ' ' :: (Y ++ '\n' :: restY))))) = some Y := by
  have hf : ∀ l, kwType.isPrefixOf l = false → tryTok kwType l = none :=
    fun l => tryTok_none kwType l
  have hyA : 'y' ∉ kwDate ++ ' ' :: D := by
    intro hm
    rw [List.mem_append] at hm
    rcases hm with hm | hm
    · exact absurd hm (by decide)
    · rcases List.mem_cons.mp hm with he | hm
      · exact absurd he (by decide)
      · exact hyD hm
  rw [scanWith_barrier _ kwType hf (kwTitle ++ [' ']) _ '"' 'y' (by decide) (by decide)
    (by decide)]
  rw [scanWith_skip _ kwType hf 't' ['y','p','e',':'] rfl '"' _ (by decide)]
  rw [scanWith_barrier _ kwType hf T _ '"' ':' (by decide) (by decide) hcol]
  rw [scanWith_skip _ kwType hf 't' ['y','p','e',':'] rfl '"' _ (by decide)]
  rw [scanWith_skip _ kwType hf 't' ['y','p','e',':'] rfl '\n' _ (by decide)]
  rw [scanWith_barrier _ kwType hf (kwDate ++ ' ' :: D) _ '\n' 'y' (by decide) (by decide)
    hyA]
  rw [scanWith_skip _ kwType hf 't' ['y','p','e',':'] rfl '\n' _ (by decide)]
  exact scanWith_some_of_head _ _ _
    (tryTok_at_target kwType Y ('\n' :: restY) hY hYw (by rintro c ⟨rfl⟩; decide))
    (by simp [kwType])

theorem scanTags_header (T D Y J : Chars) (hcol : ':' ∉ T)
    (hgD : 'g' ∉ D) (hgY : 'g' ∉ Y) (hJ : ']' ∉ J) :
    scanWith tryTags ((kwTitle ++ [' ']) ++ '"' ::
      (T ++ '"' :: '\n' :: ((kwDate ++ ' ' :: D) ++ '\n' ::
        ((kwType ++ ' ' :: Y) ++ '\n' ::
          (kwTags ++ ' ' :: '[' :: (J ++ [']'])))))) = some J := by
  have hf : ∀ l, kwTags.isPrefixOf l = false → tryTags l = none :=
    fun l => tryTags_none l
  have hgA : 'g' ∉ kwDate ++ ' ' :: D := by
    intro hm
    rw [List.mem_append] at hm
    rcases hm with hm | hm
    · exact absurd hm (by decide)
    · rcases List.mem_cons.mp hm with he | hm
      · exact absurd he (by decide)
      · exact hgD hm
  have hgB : 'g' ∉ kwType ++ ' ' :: Y := by
    intro hm
    rw [List.mem_append] at hm
    rcases hm with hm | hm
    · exact absurd hm (by decide)
    · rcases List.mem_cons.mp hm with he | hm
      · exact absurd he (by decide)
      · exact hgY hm
  rw [scanWith_barrier _ kwTags hf (kwTitle ++ [' ']) _ '"' 'g' (by decide) (by decide)
    (by decide)]
  rw [scanWith_skip _ kwTags hf 't' ['a','g','s',':'] rfl '"' _ (by decide)]
  rw [scanWith_barrier _ kwTags hf T _ '"' ':' (by decide) (by decide) hcol]
  rw [scanWith_skip _ kwTags hf 't' ['a','g','s',':'] rfl '"' _ (by decide)]
  rw [scanWith_skip _ kwTags hf 't' ['a','g','s',':'] rfl '\n' _ (by decide)]
  rw [scanWith_barrier _ kwTags hf (kwDate ++ ' ' :: D) _ '\n' 'g' (by decide) (by decide)
    hgA]
  rw [scanWith_skip _ kwTags hf 't' ['a','g','s',':'] rfl '\n' _ (by decide)]
  rw [scanWith_barrier _ kwTags hf (kwType ++ ' ' :: Y) _ '\n' 'g' (by decide) (by decide)
    hgB]
  rw [scanWith_skip _ kwTags hf 't' ['a','g','s',':'] rfl '\n' _ (by decide)]
  exact scanWith_some_of_head _ _ _
    (tryTags_at_target J [] hJ)
    (by simp [kwTags])

/-! ## The frontmatter round trip -/

theorem serializeDoc_decomp (T D Y : Chars) (tags : List Chars) (body : Chars) :
    serializeDoc T D Y tags body =
      openDelim ++ (fmHeader T D Y tags ++ (closeDelim ++ ('\n' :: body))) := by
  unfold serializeDoc generateFrontmatter openDelim closeDelim
  simp

theorem parse_serialize (T D Y : Chars) (tags : List Chars) (body : Chars)
    (hT : ValidTitle T) (hD : ValidDate D) (hY : ValidType Y)
    (htags : ∀ t ∈ tags, ValidTag t) (hb : trimWs body = body) :
    parseFrontmatter (serializeDoc T D Y tags body) =
      (⟨some T, some D, some Y, some tags⟩, body) := by
  obtain ⟨hTne, hTq, hTn, hTc⟩ := hT
  obtain ⟨hDw, hDy, hDg, hDn⟩ := validDate_chars D hD
  obtain ⟨hYne, hYw, hYg, hYn⟩ := validType_facts Y hY
  have hsan : sanitizeTags tags = tags := sanitizeTags_eq_self tags htags
  have hJn : '\n' ∉ joinCS tags :=
    not_mem_joinCS tags '\n' (by decide) (by decide)
      (fun t ht => (htags t ht).2.2.2.2)
  have hJr : ']' ∉ joinCS tags :=
    not_mem_joinCS tags ']' (by decide) (by decide)
      (fun t ht => (htags t ht).2.2.2.1)
  -- no newline in each header line
  have hnl1 : '\n' ∉ titleLine T := by
    intro hm
    simp [titleLine, kwTitle] at hm
    exact hTn hm
  have hnl2 : '\n' ∉ dateLine D := by
    intro hm
    rcases List.mem_append.mp hm with hm | hm
    · exact absurd hm (by decide)
    · rcases List.mem_cons.mp hm with he | hm
      · exact absurd he (by decide)
      · exact hDn hm
  have hnl3 : '\n' ∉ typeLine Y := by
    intro hm
    rcases List.mem_append.mp hm with hm | hm
    · exact absurd hm (by decide)
    · rcases List.mem_cons.mp hm with he | hm
      · exact absurd he (by decide)
      · exact hYn hm
  have hnl4 : '\n' ∉ tagsLine (joinCS (sanitizeTags tags)) := by
    rw [hsan]
    intro hm
    simp [tagsLine, kwTags] at hm
    exact hJn hm
  -- the header has no newline+dash pair
  have hfm : fmHeader T D Y tags =
      titleLine T ++ '\n' :: (dateLine D ++ '\n' ::
        (typeLine Y ++ '\n' :: tagsLine (joinCS (sanitizeTags tags)))) := by
    unfold fmHeader
    simp
  have hnd : hasNlDash (fmHeader T D Y tags) = false := by
    rw [hfm]
    apply hasNlDash_append_cons _ _ hnl1
    · apply hasNlDash_append_cons _ _ hnl2
      · apply hasNlDash_append_cons _ _ hnl3
        · exact hasNlDash_of_no_nl _ hnl4
        · intro b hb'
          rw [show tagsLine (joinCS (sanitizeTags tags)) =
            't' :: ('a' :: 'g' :: 's' :: ':' :: ' ' :: '[' ::
              (joinCS (sanitizeTags tags) ++ [']'])) from by simp [tagsLine, kwTags]] at hb'
          simp only [List.head?_cons, Option.some.injEq] at hb'
          subst hb'
          decide
      · intro b hb'
        rw [show typeLine Y ++ '\n' :: tagsLine (joinCS (sanitizeTags tags)) =
          't' :: ('y' :: 'p' :: 'e' :: ':' :: ' ' ::
            (Y ++ '\n' :: tagsLine (joinCS (sanitizeTags tags)))) from by
              simp [typeLine, kwType]] at hb'
        simp only [List.head?_cons, Option.some.injEq] at hb'
        subst hb'
        decide
    · intro b hb'
      rw [show dateLine D ++ '\n' :: (typeLine Y ++ '\n' ::
          tagsLine (joinCS (sanitizeTags tags))) =
        'd' :: ('a' :: 't' :: 'e' :: ':' :: ' ' ::
          (D ++ '\n' :: (typeLine Y ++ '\n' ::
            tagsLine (joinCS (sanitizeTags tags))))) from by
              simp [dateLine, kwDate]] at hb'
      simp only [List.head?_cons, Option.some.injEq] at hb'
      subst hb'
      decide
  -- the four field scans over the header
  have hscanT : scanWith tryTitle (fmHeader T D Y tags) = some T := by
    rw [show fmHeader T D Y tags = (kwTitle ++ [' ']) ++ '"' :: (T ++ '"' ::
      ('\n' :: (dateLine D ++ '\n' ::
        (typeLine Y ++ '\n' :: tagsLine (joinCS (sanitizeTags tags)))))) from by
          unfold fmHeader titleLine
          simp]
    exact scanTitle_header T _ hTne hTq
  have hscanD : scanWith (tryTok kwDate) (fmHeader T D Y tags) = some D := by
    rw [show fmHeader T D Y tags = (kwTitle ++ [' ']) ++ '"' :: (T ++ '"' :: '\n' ::
      (kwDate ++ ' ' :: (D ++ '\n' ::
        (typeLine Y ++ '\n' :: tagsLine (joinCS (sanitizeTags tags)))))) from by
          unfold fmHeader titleLine dateLine
          simp]
    exact scanDate_header T D _ hTc hD.1 hDw
  have hscanY : scanWith (tryTok kwType) (fmHeader T D Y tags) = some Y := by
    rw [show fmHeader T D Y tags = (kwTitle ++ [' ']) ++ '"' :: (T ++ '"' :: '\n' ::
      ((kwDate ++ ' ' :: D) ++ '\n' :: (kwType ++ ' ' :: (Y ++ '\n' ::
        tagsLine (joinCS (sanitizeTags tags)))))) from by
          unfold fmHeader titleLine dateLine typeLine
          simp]
    exact scanType_header T D Y _ hTc hDy hYne hYw
  have hscanG : scanWith tryTags (fmHeader T D Y tags) = some (joinCS tags) := by
    rw [show fmHeader T D Y tags = (kwTitle ++ [' ']) ++ '"' :: (T ++ '"' :: '\n' ::
      ((kwDate ++ ' ' :: D) ++ '\n' :: ((kwType ++ ' ' :: Y) ++ '\n' ::
        (kwTags ++ ' ' :: '[' :: (joinCS (sanitizeTags tags) ++ [']']))))) from by
          unfold fmHeader titleLine dateLine typeLine tagsLine
          simp]
    rw [hsan]
    exact scanTags_header T D Y _ hTc hDg hYg hJr
  have hclean : cleanTags (joinCS tags) = tags := by
    apply cleanTags_joinCS
    intro t ht
    have hf := validTag_facts t (htags t ht)
    exact ⟨hf.1, hf.2, (htags t ht).2.2.1⟩
  have hbody : trimWs ('\n' :: body) = body := by
    rw [trimWs_cons_ws '\n' body (by decide)]
    exact hb
  rw [serializeDoc_decomp]
  unfold parseFrontmatter
  rw [splitFM_at _ _ hnd]
  dsimp only
  rw [hscanT, hscanD, hscanY, hscanG, hbody, Option.map_some']
  rw [hclean]

/-- Example field values for the round-trip witness. -/
def exTitle : Chars := ['M','y',' ','N','o','t','e']

def exToday : Chars := ['2','0','2','6','-','0','2','-','0','3']

def exType : Chars := ['j','o','u','r','n','a','l']

def exTags : List Chars := [['l','i','f','e','-','o','s']]

def exBody : Chars := ['B','o','d','y',' ','t','e','x','t']

/-- C1: for every valid (fields, body) pair, parsing the serialization
(`parseFrontmatter` after the PUT handler's `generateFrontmatter` with its
defaulting `date || today`, `type || 'note'`, `tags || []`) returns exactly
the defaulted input fields and the input body. Validity is the conjunction of
`ValidTitle`, `ValidDate`, `ValidType`, `ValidTag` and trim-stability of the
body, the sufficient conditions under which the line-oriented format can
carry the fields at all. -/
theorem c1_roundtrip (title : Chars) (date : Option Chars) (typ : Option Chars)
    (tags : Option (List Chars)) (today body : Chars)
    (hT : ValidTitle title) (hD : ValidDate (jsOrStr date today))
    (hY : ValidType (jsOrStr typ noteChars))
    (htags : ∀ t ∈ tags.getD [], ValidTag t) (hb : trimWs body = body) :
    parseFrontmatter (serializeDocAPI title date typ tags today body) =
      (⟨some title, some (jsOrStr date today), some (jsOrStr typ noteChars),
        some (tags.getD [])⟩, body) :=
  parse_serialize title (jsOrStr date today) (jsOrStr typ noteChars) (tags.getD [])
    body hT hD hY htags hb

/-- Witness for C1 at a concrete document. -/
theorem c1_roundtrip_witness :
    ValidTitle exTitle ∧ trimWs exBody = exBody ∧
      parseFrontmatter (serializeDocAPI exTitle none (some exType) (some exTags)
          exToday exBody) =
        (⟨some exTitle, some exToday, some exType, some exTags⟩, exBody) :=
  ⟨by decide, by decide,
    c1_roundtrip exTitle none (some exType) (some exTags) exToday exBody
      (by decide) (by decide) (by decide) (by decide) (by decide)⟩

/-! ## Sync pass lemmas -/

theorem lookupA_isSome_of_mem (l : List (Chars × Chars)) (p c : Chars)
    (h : (p, c) ∈ l) : (lookupA l p).isSome = true := by
  induction l with
  | nil => simp at h
  | cons a r ih =>
    rcases List.mem_cons.mp h with rfl | hm
    · simp [lookupA]
    · unfold lookupA
      by_cases he : a.1 = p
      · simp [he]
      · simpa [he] using ih hm

theorem applyPass_eq (l : List (Chars × Chars)) : applyPass l = l := by
  unfold applyPass shaOf
  induction l with
  | nil => rfl
  | cons a r ih => simp only [List.map_cons, ih]

theorem mem_stageLocal_create (l r : List (Chars × Chars)) (p c : Chars) :
    SyncOp.create p c ∈ stageLocal l r ↔ (p, c) ∈ l ∧ lookupA r p = none := by
  unfold stageLocal
  rw [List.mem_map]
  constructor
  · rintro ⟨⟨q, v⟩, hmem, heq⟩
    cases hl : lookupA r q with
    | some sha => rw [hl] at heq; simp at heq
    | none =>
      rw [hl] at heq
      simp only [SyncOp.create.injEq] at heq
      obtain ⟨rfl, rfl⟩ := heq
      exact ⟨hmem, hl⟩
  · rintro ⟨hmem, hl⟩
    exact ⟨(p, c), hmem, by rw [hl]⟩

theorem mem_stageLocal_update (l r : List (Chars × Chars)) (p c sha : Chars) :
    SyncOp.update p c sha ∈ stageLocal l r ↔ (p, c) ∈ l ∧ lookupA r p = some sha := by
  unfold stageLocal
  rw [List.mem_map]
  constructor
  · rintro ⟨⟨q, v⟩, hmem, heq⟩
    cases hl : lookupA r q with
    | some sha' =>
      rw [hl] at heq
      simp only [SyncOp.update.injEq] at heq
      obtain ⟨rfl, rfl, rfl⟩ := heq
      exact ⟨hmem, hl⟩
    | none => rw [hl] at heq; simp at heq
  · rintro ⟨hmem, hl⟩
    exact ⟨(p, c), hmem, by rw [hl]⟩

theorem mem_stageDeletes (l r : List (Chars × Chars)) (p sha : Chars) :
    SyncOp.del p sha ∈ stageDeletes l r ↔ (p, sha) ∈ r ∧ lookupA l p = none := by
  unfold stageDeletes
  rw [List.mem_map]
  constructor
  · rintro ⟨⟨q, v⟩, hmem, heq⟩
    rw [List.mem_filter] at hmem
    simp only [SyncOp.del.injEq] at heq
    obtain ⟨rfl, rfl⟩ := heq
    refine ⟨hmem.1, ?_⟩
    have h2 := hmem.2
    simp only at h2
    cases ho : lookupA l q with
    | none => rfl
    | some v2 => rw [ho] at h2; simp at h2
  · rintro ⟨hmem, hl⟩
    refine ⟨(p, sha), ?_, rfl⟩
    rw [List.mem_filter]
    exact ⟨hmem, by simp [hl]⟩

theorem create_not_mem_stageDeletes (l r : List (Chars × Chars)) (p c : Chars) :
    SyncOp.create p c ∉ stageDeletes l r := by
  unfold stageDeletes
  rw [List.mem_map]
  rintro ⟨⟨q, v⟩, -, heq⟩
  simp at heq

theorem update_not_mem_stageDeletes (l r : List (Chars × Chars)) (p c sha : Chars) :
    SyncOp.update p c sha ∉ stageDeletes l r := by
  unfold stageDeletes
  rw [List.mem_map]
  rintro ⟨⟨q, v⟩, -, heq⟩
  simp at heq

theorem del_not_mem_stageLocal (l r : List (Chars × Chars)) (p sha : Chars) :
    SyncOp.del p sha ∉ stageLocal l r := by
  unfold stageLocal
  rw [List.mem_map]
  rintro ⟨⟨q, v⟩, -, heq⟩
  cases hl : lookupA r q with
  | some sha' => rw [hl] at heq; simp at heq
  | none => rw [hl] at heq; simp at heq

/-! ## C4 — staging determined by presence alone -/

/-- C4: in every sync pass, a local path absent remotely is staged as a
Create carrying no version token; a local path present remotely is staged as
an Update (regardless of content); a remote path with no local counterpart
is staged as a Delete tagged with its enumerated version token. -/
theorem c4_staging (localFiles remote : List (Chars × Chars)) (p c sha : Chars) :
    (SyncOp.create p c ∈ syncOps localFiles remote ↔
      (p, c) ∈ localFiles ∧ lookupA remote p = none) ∧
    (SyncOp.update p c sha ∈ syncOps localFiles remote ↔
      (p, c) ∈ localFiles ∧ lookupA remote p = some sha) ∧
    (SyncOp.del p sha ∈ syncOps localFiles remote ↔
      (p, sha) ∈ remote ∧ lookupA localFiles p = none) := by
  unfold syncOps
  refine ⟨?_, ?_, ?_⟩
  · rw [List.mem_append]
    constructor
    · rintro (hm | hm)
      · exact (mem_stageLocal_create _ _ _ _).mp hm
      · exact absurd hm (create_not_mem_stageDeletes _ _ _ _)
    · intro h
      exact Or.inl ((mem_stageLocal_create _ _ _ _).mpr h)
  · rw [List.mem_append]
    constructor
    · rintro (hm | hm)
      · exact (mem_stageLocal_update _ _ _ _ _).mp hm
      · exact absurd hm (update_not_mem_stageDeletes _ _ _ _ _)
    · intro h
      exact Or.inl ((mem_stageLocal_update _ _ _ _ _).mpr h)
  · rw [List.mem_append]
    constructor
    · rintro (hm | hm)
      · exact absurd hm (del_not_mem_stageLocal _ _ _ _)
      · exact (mem_stageDeletes _ _ _ _).mp hm
    · intro h
      exact Or.inr ((mem_stageDeletes _ _ _ _).mpr h)

/-! ## C2 — what a second sync pass does -/

def exLocal : List (Chars × Chars) :=
  [(['b','r','a','i','n','/','a','.','m','d'], ['x'])]

/-- C2 counterexample: with one local file and an initially empty remote, a
second pass after a fully successful first pass still performs a remote
operation — it re-pushes the file as an Update. The claim of zero remote
operations on the second pass is false. -/
theorem c2_counterexample :
    (syncPass exLocal (applyPass exLocal)).updated =
        [['b','r','a','i','n','/','a','.','m','d']] ∧
      (syncPass exLocal (applyPass exLocal)).updated ≠ [] := by
  constructor
  · decide
  · decide

theorem filterMap_length_all {α β : Type} (f : α → Option β) (L : List α)
    (h : ∀ a ∈ L, (f a).isSome = true) : (L.filterMap f).length = L.length := by
  induction L with
  | nil => rfl
  | cons a r ih =>
    rw [List.filterMap_cons]
    cases hf : f a with
    | none => exact absurd (hf ▸ h a (by simp)) (by simp)
    | some b => simp [ih (fun x hx => h x (List.mem_cons_of_mem a hx))]

/-- C2 (amended): a second pass run immediately after a fully successful
pass, with no local changes, performs zero Creates and zero Deletes — but it
is not free of remote operations: every local file is staged as an Update
again, so the second pass performs exactly one Update per local file. -/
theorem c2_second_pass (localFiles remote : List (Chars × Chars)) :
    (syncPass localFiles (applyPass localFiles)).created = [] ∧
    (syncPass localFiles (applyPass localFiles)).deleted = [] ∧
    (syncPass localFiles (applyPass localFiles)).updated.length =
      localFiles.length := by
  rw [applyPass_eq]
  have hsome : ∀ pc ∈ localFiles, (lookupA localFiles pc.1).isSome = true := by
    rintro ⟨p, c⟩ hm
    exact lookupA_isSome_of_mem localFiles p c hm
  have hdel : stageDeletes localFiles localFiles = [] := by
    unfold stageDeletes
    rw [show ((localFiles.filter
        (fun ps => !(lookupA localFiles ps.1).isSome)) : List (Chars × Chars)) = []
      from List.filter_eq_nil.mpr (fun a ha => by simp [hsome a ha])]
    rfl
  have hupd : ∀ op ∈ stageLocal localFiles localFiles,
      (match op with | SyncOp.update p _ _ => some p | _ => none).isSome = true := by
    intro op hop
    unfold stageLocal at hop
    rw [List.mem_map] at hop
    obtain ⟨pc, hm, heq⟩ := hop
    cases hl : lookupA localFiles pc.1 with
    | none => exact absurd (hl ▸ hsome pc hm) (by simp)
    | some sha =>
      rw [hl] at heq
      rw [← heq]
      rfl
  refine ⟨?_, ?_, ?_⟩
  · unfold syncPass
    rw [show syncOps localFiles localFiles = stageLocal localFiles localFiles from by
      unfold syncOps; rw [hdel, List.append_nil]]
    apply List.filterMap_eq_nil.mpr
    intro op hop
    have := hupd op hop
    cases op <;> simp_all
  · unfold syncPass
    rw [show syncOps localFiles localFiles = stageLocal localFiles localFiles from by
      unfold syncOps; rw [hdel, List.append_nil]]
    apply List.filterMap_eq_nil.mpr
    intro op hop
    have := hupd op hop
    cases op <;> simp_all
  · unfold syncPass
    rw [show syncOps localFiles localFiles = stageLocal localFiles localFiles from by
      unfold syncOps; rw [hdel, List.append_nil]]
    rw [filterMap_length_all _ _ hupd]
    unfold stageLocal
    rw [List.length_map]

/-! ## C10 — the sync secret default -/

/-- C10: when the SYNC_SECRET environment variable is unset, the sync
trigger compares the caller's token against the hard-coded default
`life-os-sync-2026`; any request whose header strips to that default is
authorized, and an unauthorized request gets the same answer whatever the
local or remote trees are — the check precedes any enumeration. -/
theorem c10_default_secret (authHeader : Chars)
    (h : replaceFirst bearerChars authHeader = defaultSecret) :
    (∀ ghPat localFiles remote,
        syncPOST none (some authHeader) ghPat localFiles remote ≠ .unauthorized) ∧
      (∀ env hdr ghPat l1 r1 l2 r2, syncAuthorized env hdr = false →
        syncPOST env hdr ghPat l1 r1 = .unauthorized ∧
          syncPOST env hdr ghPat l1 r1 = syncPOST env hdr ghPat l2 r2) := by
  constructor
  · intro ghPat localFiles remote
    have hauth : syncAuthorized none (some authHeader) = true := by
      show (replaceFirst bearerChars authHeader == effectiveSecret none) = true
      rw [h]
      decide
    unfold syncPOST
    rw [hauth]
    by_cases hp : (ghPat.getD []).isEmpty = true <;> simp [hp]
  · intro env hdr ghPat l1 r1 l2 r2 hfail
    unfold syncPOST
    rw [hfail]
    exact ⟨rfl, rfl⟩

def exAuthHeader : Chars :=
  ['B','e','a','r','e','r',' ','l','i','f','e','-','o','s','-','s','y','n','c','-','2','0','2','6']

/-- Witness for C10 with the header `Bearer life-os-sync-2026`. -/
theorem c10_default_secret_witness :
    replaceFirst bearerChars exAuthHeader = defaultSecret ∧
      syncPOST none (some exAuthHeader) (some ['t']) [] [] ≠ .unauthorized :=
  ⟨by decide, (c10_default_secret exAuthHeader (by decide)).1 (some ['t']) [] []⟩

/-! ## Path resolution lemmas -/

/-- A path segment that resolution passes through unchanged. -/
@[reducible] def NormalSeg (s : Seg) : Prop :=
  s ≠ [] ∧ s ≠ ['.'] ∧ s ≠ ['.', '.']

theorem normSegs_cons (acc : AbsPath) (s : Seg) (r : List Seg) :
    normSegs acc (s :: r) =
      if s = [] ∨ s = ['.'] then normSegs acc r
      else if s = ['.', '.'] then normSegs acc.dropLast r
      else normSegs (acc ++ [s]) r := rfl

theorem normSegs_normal (L : List Seg) :
    ∀ acc, (∀ s ∈ L, NormalSeg s) → normSegs acc L = acc ++ L := by
  induction L with
  | nil => intro acc _; simp [normSegs]
  | cons s r ih =>
    intro acc h
    obtain ⟨h1, h2, h3⟩ := h s (List.mem_cons_self s r)
    rw [normSegs_cons, if_neg (by tauto), if_neg h3,
      ih (acc ++ [s]) (fun u hu => h u (List.mem_cons_of_mem s hu))]
    simp

theorem foldl_render_isPre (q : List Seg) :
    ∀ acc : Chars, acc <+: q.foldl (fun a s => a ++ '/' :: s) acc := by
  induction q with
  | nil => intro acc; exact List.prefix_rfl
  | cons s r ih =>
    intro acc
    exact List.IsPrefix.trans (List.prefix_append acc ('/' :: s)) (ih (acc ++ '/' :: s))

theorem insideRoot_append (root : AbsPath) (q : List Seg) :
    insideRoot root (root ++ q) = true := by
  unfold insideRoot renderAbs
  rw [List.foldl_append]
  exact List.isPrefixOf_iff_prefix.mpr (foldl_render_isPre q _)

theorem splitOnChar_cons (sep c : Char) (r : Chars) :
    splitOnChar sep (c :: r) =
      if c = sep then [] :: splitOnChar sep r
      else
        match splitOnChar sep r with
        | [] => [[c]]
        | h :: t => (c :: h) :: t := rfl

theorem splitOnChar_ne_nil (sep : Char) (t : Chars) : splitOnChar sep t ≠ [] := by
  cases t with
  | nil => simp [splitOnChar]
  | cons c r =>
    rw [splitOnChar_cons]
    by_cases hc : c = sep
    · simp [hc]
    · rw [if_neg hc]
      cases hx : splitOnChar sep r <;> simp

theorem splitOnChar_no_sep (sep : Char) (t : Chars) (h : sep ∉ t) :
    splitOnChar sep t = [t] := by
  induction t with
  | nil => rfl
  | cons c r ih =>
    have hc : ¬c = sep := fun he => h (he ▸ List.mem_cons_self c r)
    rw [splitOnChar_cons, if_neg hc, ih (fun hm => h (List.mem_cons_of_mem c hm))]

theorem splitOnChar_append (sep : Char) (t rest : Chars) (h : sep ∉ t) :
    splitOnChar sep (t ++ sep :: rest) = t :: splitOnChar sep rest := by
  induction t with
  | nil =>
    rw [List.nil_append, splitOnChar_cons, if_pos rfl]
  | cons c r ih =>
    have hc : ¬c = sep := fun he => h (he ▸ List.mem_cons_self c r)
    rw [List.cons_append, splitOnChar_cons, if_neg hc,
      ih (fun hm => h (List.mem_cons_of_mem c hm))]

theorem joinSlash_splitSlash (s : Chars) : joinSlash (splitSlash s) = s := by
  unfold splitSlash
  induction s with
  | nil => rfl
  | cons c r ih =>
    rw [splitOnChar_cons]
    by_cases hc : c = '/'
    · subst hc
      rw [if_pos rfl]
      obtain ⟨h2, tl2, hsplit⟩ : ∃ h2 tl2, splitOnChar '/' r = h2 :: tl2 := by
        cases hx : splitOnChar '/' r with
        | nil => exact absurd hx (splitOnChar_ne_nil '/' r)
        | cons a b => exact ⟨a, b, rfl⟩
      rw [hsplit]
      rw [hsplit] at ih
      show ([] : Chars) ++ '/' :: joinSlash (h2 :: tl2) = '/' :: r
      rw [List.nil_append, ih]
    · rw [if_neg hc]
      obtain ⟨h2, tl2, hsplit⟩ : ∃ h2 tl2, splitOnChar '/' r = h2 :: tl2 := by
        cases hx : splitOnChar '/' r with
        | nil => exact absurd hx (splitOnChar_ne_nil '/' r)
        | cons a b => exact ⟨a, b, rfl⟩
      rw [hsplit]
      rw [hsplit] at ih
      cases tl2 with
      | nil =>
        show c :: h2 = c :: r
        have : joinSlash [h2] = r := ih
        simpa [joinSlash] using this
      | cons x xs =>
        show (c :: h2) ++ '/' :: joinSlash (x :: xs) = c :: r
        have : h2 ++ '/' :: joinSlash (x :: xs) = r := ih
        rw [List.cons_append, this]

theorem lookupFile_setFile (files : List (AbsPath × Chars)) (p : AbsPath) (c : Chars) :
    lookupFile (setFile files p c) p = some c := by
  induction files with
  | nil => simp [setFile, lookupFile]
  | cons a r ih =>
    unfold setFile
    by_cases he : a.1 = p
    · rw [if_pos he]
      simp [lookupFile]
    · rw [if_neg he]
      unfold lookupFile
      rw [if_neg he]
      exact ih

/-! ## C3 — path safety of get / update / delete -/

/-- The resolved `BRAIN_DIR` used by the concrete path-safety examples. -/
def exRoot : AbsPath := [['s','r','v'], ['a','p','p'], ['b','r','a','i','n']]

def exAbsSlug : Chars := ['/','a','b','s','o','l','u','t','e','/','p','a','t','h']

/-- C3 counterexample: `delete("/absolute/path")` does not fail with
InvalidPath — the handler first deletes `..` occurrences and leading slashes
from the slug, which confines the path inside the root, so the request
reaches the existence check and fails with NotFound instead (performing no
mutation). -/
theorem c3_counterexample :
    routeDELETE exRoot exAbsSlug ⟨[], [exRoot]⟩ =
        (ApiResult.notFound, ⟨[], [exRoot]⟩) ∧
      ApiResult.notFound ≠ ApiResult.invalidPath := by
  constructor
  · decide
  · decide

/-- C3 (amended): `get` and `update` reject a slug whose resolved path fails
the string-prefix check against the resolved root, with InvalidPath, for
every filesystem state (so before any filesystem access); `delete` instead
sanitizes the slug — stripping `..` and leading slashes — so an
absolute-path injection such as `/absolute/path` resolves inside the root
and yields NotFound with the state unchanged. -/
theorem c3_path_safety :
    (∀ root slugSegs (st : FsState),
        insideRoot root (docFilePath root (joinSlash slugSegs)) = false →
        routeGET root slugSegs st = GetResult.invalidPath) ∧
      (∀ root slugSegs title typ tags content date today (st : FsState),
        title.isEmpty = false → content.isEmpty = false →
        insideRoot root (docFilePath root (joinSlash slugSegs)) = false →
        routePUT root slugSegs title typ tags content date today st =
          (ApiResult.invalidPath, st)) ∧
      (∀ st : FsState, st.files = [] →
        routeDELETE exRoot exAbsSlug st = (ApiResult.notFound, st)) := by
  refine ⟨?_, ?_, ?_⟩
  · intro root slugSegs st hcheck
    unfold routeGET
    simp [hcheck]
  · intro root slugSegs title typ tags content date today st ht hc hcheck
    unfold routePUT
    simp [ht, hc, hcheck]
  · intro st hf
    unfold routeDELETE
    rw [hf]
    have hin : insideRoot exRoot
        (docFilePath exRoot (stripLeadSlashes (removeDotDot exAbsSlug))) = true := by
      decide
    simp [hin, lookupFile]

def exEscGet : List Seg := [['.','.'], ['.','.'], ['e','t','c'], ['p','a','s','s','w','d']]

def exEscPut : List Seg := [['.','.'], ['o','u','t','s','i','d','e']]

/-- Witness for C3 (amended) at the spec's three example inputs. -/
theorem c3_path_safety_witness :
    insideRoot exRoot (docFilePath exRoot (joinSlash exEscGet)) = false ∧
      routeGET exRoot exEscGet ⟨[], []⟩ = GetResult.invalidPath ∧
      routePUT exRoot exEscPut ['t'] none none ['x'] none exToday ⟨[], []⟩ =
        (ApiResult.invalidPath, ⟨[], []⟩) ∧
      routeDELETE exRoot exAbsSlug ⟨[], [exRoot]⟩ =
        (ApiResult.notFound, ⟨[], [exRoot]⟩) :=
  ⟨by decide,
   c3_path_safety.1 exRoot exEscGet ⟨[], []⟩ (by decide),
   c3_path_safety.2.1 exRoot exEscPut ['t'] none none ['x'] none exToday ⟨[], []⟩
     (by decide) (by decide) (by decide),
   c3_path_safety.2.2 ⟨[], [exRoot]⟩ rfl⟩

/-! ## C7 — delete and directory cleanup -/

def exNestedSlug : Chars := ['a','/','b','/','d','o','c']

def exNestedFile : AbsPath := exRoot ++ [['a'], ['b'], ['d','o','c','.','m','d']]

def exNestedSt : FsState :=
  ⟨[(exNestedFile, ['x'])], [exRoot, exRoot ++ [['a']], exRoot ++ [['a'], ['b']]]⟩

/-- C7 counterexample: deleting `a/b/doc` (the only file under `a/b`) removes
the file and the immediate parent `a/b`, but leaves the now-empty non-root
ancestor `a` in place — the handler only ever inspects `path.dirname`, it
does not walk every ancestor up to the root. -/
theorem c7_counterexample :
    (routeDELETE exRoot exNestedSlug exNestedSt).1 = ApiResult.ok ∧
      (routeDELETE exRoot exNestedSlug exNestedSt).2.files = [] ∧
      (exRoot ++ [['a']]) ∈ (routeDELETE exRoot exNestedSlug exNestedSt).2.dirs ∧
      dirHasEntries (routeDELETE exRoot exNestedSlug exNestedSt).2.files
        (routeDELETE exRoot exNestedSlug exNestedSt).2.dirs (exRoot ++ [['a']]) = false ∧
      (exRoot ++ [['a']]) ≠ exRoot := by
  refine ⟨?_, ?_, ?_, ?_, ?_⟩ <;> decide

/-- C7 (amended): `delete` fails with NotFound (no state change) when the
sanitized path is absent; when present it removes exactly that file and then
removes at most the immediate parent directory — when that parent is not the
root and has become empty — while every other directory survives; deeper
ancestors are never removed. -/
theorem c7_delete_behavior (root : AbsPath) (slug : Chars) (st : FsState) :
    (insideRoot root (docFilePath root (stripLeadSlashes (removeDotDot slug))) = true →
      lookupFile st.files (docFilePath root (stripLeadSlashes (removeDotDot slug))) = none →
      routeDELETE root slug st = (ApiResult.notFound, st)) ∧
    (∀ c,
      insideRoot root (docFilePath root (stripLeadSlashes (removeDotDot slug))) = true →
      lookupFile st.files (docFilePath root (stripLeadSlashes (removeDotDot slug))) = some c →
      (routeDELETE root slug st).1 = ApiResult.ok ∧
      (routeDELETE root slug st).2.files = st.files.filter
        (fun f => !(f.1 == docFilePath root (stripLeadSlashes (removeDotDot slug)))) ∧
      (∀ d ∈ st.dirs,
        d ≠ (docFilePath root (stripLeadSlashes (removeDotDot slug))).dropLast →
        d ∈ (routeDELETE root slug st).2.dirs)) := by
  constructor
  · intro hin habs
    unfold routeDELETE
    simp [hin, habs]
  · intro c hin hpres
    unfold routeDELETE
    simp only [hin, hpres, Bool.not_true, Option.isSome_some, if_false]
    by_cases hcond : (docFilePath root (stripLeadSlashes (removeDotDot slug))).dropLast ≠ root ∧
        dirHasEntries
          (st.files.filter
            (fun f => !(f.1 == docFilePath root (stripLeadSlashes (removeDotDot slug)))))
          st.dirs
          (docFilePath root (stripLeadSlashes (removeDotDot slug))).dropLast = false
    · rw [if_pos hcond]
      refine ⟨rfl, rfl, ?_⟩
      intro d hd hne
      apply List.mem_filter.mpr
      exact ⟨hd, by simp [hne]⟩
    · rw [if_neg hcond]
      exact ⟨rfl, rfl, fun d hd _ => hd⟩

/-- Witness for C7 (amended) at the nested-document state. -/
theorem c7_delete_behavior_witness :
    lookupFile exNestedSt.files
        (docFilePath exRoot (stripLeadSlashes (removeDotDot exNestedSlug))) =
      some ['x'] ∧
      (routeDELETE exRoot exNestedSlug exNestedSt).1 = ApiResult.ok :=
  ⟨by decide,
   ((c7_delete_behavior exRoot exNestedSlug exNestedSt).2 ['x'] (by decide) (by decide)).1⟩

/-! ## Slug character lemmas -/

theorem mem_collapseAux (l : Chars) :
    ∀ (b : Bool) (c : Char), c ∈ collapseAux b l →
      isLowerAlnum c = true ∨ c = '-' := by
  induction l with
  | nil =>
    intro b c h
    simp [collapseAux] at h
  | cons a r ih =>
    intro b c h
    unfold collapseAux at h
    by_cases ha : isLowerAlnum a = true
    · rw [if_pos ha] at h
      rcases List.mem_cons.mp h with rfl | hm
      · exact Or.inl ha
      · exact ih false c hm
    · rw [if_neg ha] at h
      cases b with
      | true =>
        rw [if_pos rfl] at h
        exact ih true c h
      | false =>
        rw [if_neg (by simp)] at h
        rcases List.mem_cons.mp h with rfl | hm
        · exact Or.inr rfl
        · exact ih true c hm

theorem mem_collapseRuns (l : Chars) (c : Char) (h : c ∈ collapseRuns l) :
    isLowerAlnum c = true ∨ c = '-' :=
  mem_collapseAux l false c h

theorem mem_dropOneLeadDash (l : Chars) (c : Char) (h : c ∈ dropOneLeadDash l) :
    c ∈ l := by
  unfold dropOneLeadDash at h
  split at h
  · exact List.mem_cons_of_mem _ h
  · exact h

theorem mem_dropOneTrailDash (l : Chars) (c : Char) (h : c ∈ dropOneTrailDash l) :
    c ∈ l := by
  unfold dropOneTrailDash at h
  split at h
  · rename_i r heq
    have h1 : c ∈ r := List.mem_reverse.mp h
    have h2 : c ∈ l.reverse := by
      rw [heq]
      exact List.mem_cons_of_mem _ h1
    exact List.mem_reverse.mp h2
  · exact h

theorem slash_not_mem_core (title : Chars) :
    '/' ∉ dropOneTrailDash (dropOneLeadDash (collapseRuns (title.map Char.toLower))) := by
  intro hm
  have h1 := mem_dropOneLeadDash _ _ (mem_dropOneTrailDash _ _ hm)
  rcases mem_collapseRuns _ _ h1 with h | h
  · exact absurd h (by decide)
  · exact absurd h (by decide)

theorem validType_seg (Y : Chars) (hY : ValidType Y) :
    '/' ∉ Y ∧ NormalSeg (Y ++ ['s']) := by
  have hY' : Y = ['c','o','n','c','e','p','t'] ∨ Y = ['d','e','c','i','s','i','o','n'] ∨
      Y = ['j','o','u','r','n','a','l'] ∨ Y = ['n','o','t','e'] ∨
      Y = ['r','e','f','e','r','e','n','c','e'] := by
    simpa [ValidType, docTypes] using hY
  rcases hY' with rfl | rfl | rfl | rfl | rfl <;> exact ⟨by decide, by decide⟩

theorem normalSeg_md (core : Chars) : NormalSeg (core ++ mdExt) := by
  refine ⟨?_, ?_, ?_⟩ <;> intro he <;>
    have hlen := congrArg List.length he <;>
    simp [mdExt] at hlen

/-! ## C6 — create, get, and duplicate create -/

/-- C6 counterexample: with the title `a"b` (a legal display string), create
succeeds, but get on the computed slug `notes/a-b` returns title `a` — the
quote inside the title breaks the quoted header line, so the round trip does
not return a document whose title equals the input for every (title, type)
pair. -/
theorem c6_counterexample :
    (routePOSTcreate exRoot ['a','"','b'] none none ['x'] exToday ⟨[], []⟩).1 =
        CreateResult.created ['n','o','t','e','s','/','a','-','b'] ∧
      routeGET exRoot [['n','o','t','e','s'], ['a','-','b']]
          (routePOSTcreate exRoot ['a','"','b'] none none ['x'] exToday ⟨[], []⟩).2 =
        GetResult.ok ⟨some ['a'], some exToday, some ['n','o','t','e'], some []⟩ ['x'] ∧
      some (['a'] : Chars) ≠ some ['a','"','b'] := by
  refine ⟨?_, ?_, ?_⟩ <;> decide

/-- C6 (amended): for valid ASCII titles (nonempty, no `"`, `\n` or `:`) and
a type from the closed set, create followed by get on the computed slug
returns the document with exactly the input title and type, and a second
create with the same title and type fails with AlreadyExists (conflict). -/
theorem c6_create_get (root : AbsPath) (title : Chars) (typ : Option Chars)
    (tags : Option (List Chars)) (content today : Chars) (st : FsState)
    (hroot : ∀ s ∈ root, NormalSeg s)
    (hT : ValidTitle title) (hD : ValidDate today)
    (hY : ValidType (jsOrStr typ noteChars))
    (htags : ∀ t ∈ tags.getD [], ValidTag t)
    (hc : trimWs content = content) (hcne : content ≠ [])
    (habs : lookupFile st.files
      (docFilePath root (generateSlug title (jsOrStr typ noteChars))) = none) :
    (routePOSTcreate root title typ tags content today st).1 =
        CreateResult.created (generateSlug title (jsOrStr typ noteChars)) ∧
      routeGET root (splitSlash (generateSlug title (jsOrStr typ noteChars)))
          (routePOSTcreate root title typ tags content today st).2 =
        GetResult.ok
          ⟨some title, some today, some (jsOrStr typ noteChars), some (tags.getD [])⟩
          content ∧
      (routePOSTcreate root title typ tags content today
          (routePOSTcreate root title typ tags content today st).2).1 =
        CreateResult.conflict (generateSlug title (jsOrStr typ noteChars)) := by
  have htne : title.isEmpty = false := by
    cases title with
    | nil => exact absurd rfl hT.1
    | cons a r => rfl
  have hcne' : content.isEmpty = false := by
    cases content with
    | nil => exact absurd rfl hcne
    | cons a r => rfl
  obtain ⟨hYslash, hYseg⟩ := validType_seg _ hY
  have hslug : generateSlug title (jsOrStr typ noteChars) ++ mdExt =
      ((jsOrStr typ noteChars) ++ ['s']) ++ '/' ::
        (dropOneTrailDash (dropOneLeadDash (collapseRuns (title.map Char.toLower)))
          ++ mdExt) := by
    unfold generateSlug
    simp
  have hslash1 : '/' ∉ (jsOrStr typ noteChars) ++ ['s'] := by
    intro hm
    rcases List.mem_append.mp hm with hm | hm
    · exact hYslash hm
    · simp at hm
  have hslash2 : '/' ∉
      dropOneTrailDash (dropOneLeadDash (collapseRuns (title.map Char.toLower)))
        ++ mdExt := by
    intro hm
    rcases List.mem_append.mp hm with hm | hm
    · exact slash_not_mem_core title hm
    · simp [mdExt] at hm
  have hsplit : splitSlash (generateSlug title (jsOrStr typ noteChars) ++ mdExt) =
      [(jsOrStr typ noteChars) ++ ['s'],
       dropOneTrailDash (dropOneLeadDash (collapseRuns (title.map Char.toLower)))
         ++ mdExt] := by
    unfold splitSlash
    rw [hslug, splitOnChar_append '/' _ _ hslash1, splitOnChar_no_sep '/' _ hslash2]
  have hfp : docFilePath root (generateSlug title (jsOrStr typ noteChars)) =
      root ++ [(jsOrStr typ noteChars) ++ ['s'],
        dropOneTrailDash (dropOneLeadDash (collapseRuns (title.map Char.toLower)))
          ++ mdExt] := by
    unfold docFilePath
    rw [hsplit]
    apply normSegs_normal
    intro s hs
    rcases List.mem_append.mp hs with hs | hs
    · exact hroot s hs
    · rcases List.mem_cons.mp hs with rfl | hs
      · exact hYseg
      · rcases List.mem_cons.mp hs with rfl | hs
        · exact normalSeg_md _
        · simp at hs
  have hin : insideRoot root
      (docFilePath root (generateSlug title (jsOrStr typ noteChars))) = true := by
    rw [hfp]
    exact insideRoot_append root _
  have hpost : routePOSTcreate root title typ tags content today st =
      (CreateResult.created (generateSlug title (jsOrStr typ noteChars)),
       ⟨setFile st.files (docFilePath root (generateSlug title (jsOrStr typ noteChars)))
          (serializeDoc title today (jsOrStr typ noteChars) (tags.getD []) content),
        addDirs st.dirs
          (docFilePath root (generateSlug title (jsOrStr typ noteChars))).dropLast⟩) := by
    unfold routePOSTcreate
    simp [htne, hcne', habs]
  have hlook := lookupFile_setFile st.files
    (docFilePath root (generateSlug title (jsOrStr typ noteChars)))
    (serializeDoc title today (jsOrStr typ noteChars) (tags.getD []) content)
  refine ⟨?_, ?_, ?_⟩
  · rw [hpost]
  · rw [hpost]
    unfold routeGET
    rw [joinSlash_splitSlash]
    simp only [hin, Bool.not_true, if_false, hlook]
    rw [parse_serialize title today (jsOrStr typ noteChars) (tags.getD []) content
      hT hD hY htags hc]
    rfl
  · rw [hpost]
    unfold routePOSTcreate
    simp [htne, hcne', hlook]

/-! ## C8 — the listing sort -/

/-- The two documents of the C8 counterexample: one with the unparsable date
`zzz`, one dated. -/
def exDocU : DocMeta := ⟨['u'], ['z','z','z']⟩

def exDocD : DocMeta := ⟨['d'], ['2','0','2','4','-','0','1','-','0','1']⟩

/-- C8 counterexample: a document with the unparsable date `zzz` compares as
NaN against a dated document; ECMAScript's `SortCompare` turns NaN into `+0`,
so the two are tied and the (specified-stable) sort leaves the unparsable
document first — it does not sort after the dated document. -/
theorem c8_counterexample :
    sortDocs [exDocU, exDocD] = [exDocU, exDocD] ∧
      sortCompare exDocU exDocD = none ∧
      cmpES exDocU exDocD = 0 := by
  refine ⟨?_, ?_, ?_⟩ <;> decide

/-- C8 (amended): the comparator of `getAllDocuments` orders every
missing-date document after every dated one and dated documents by date
descending; but a document with a nonempty unparsable date compares equal
(`0`) to every dated document, so it keeps its original position among them
rather than sorting last; and two missing-date documents compare `1` in both
directions, so their relative order is not determined by the comparator. -/
theorem c8_sort_comparator (a b : DocMeta) :
    (a.date = [] → b.date ≠ [] → cmpES a b = 1) ∧
      (a.date ≠ [] → b.date = [] → cmpES a b = -1) ∧
      (a.date = [] → b.date = [] → cmpES a b = 1 ∧ cmpES b a = 1) ∧
      (∀ x y, jsDateVal a.date = some x → jsDateVal b.date = some y →
        (cmpES a b ≤ 0 ↔ y ≤ x)) ∧
      (a.date ≠ [] → b.date ≠ [] →
        jsDateVal a.date = none ∨ jsDateVal b.date = none → cmpES a b = 0) := by
  obtain ⟨ta, da⟩ := a
  obtain ⟨tb, db⟩ := b
  refine ⟨?_, ?_, ?_, ?_, ?_⟩
  · intro ha hb
    subst ha
    simp [cmpES, sortCompare]
  · intro ha hb
    subst hb
    cases da with
    | nil => exact absurd rfl ha
    | cons x xs => simp [cmpES, sortCompare]
  · intro ha hb
    subst ha
    subst hb
    simp [cmpES, sortCompare]
  · intro x y hx hy
    have hane : da ≠ [] := by
      intro he
      rw [he] at hx
      simp [jsDateVal] at hx
    have hbne : db ≠ [] := by
      intro he
      rw [he] at hy
      simp [jsDateVal] at hy
    have hea : da.isEmpty = false := by
      cases da with
      | nil => exact absurd rfl hane
      | cons c r => rfl
    have heb : db.isEmpty = false := by
      cases db with
      | nil => exact absurd rfl hbne
      | cons c r => rfl
    simp only [cmpES, sortCompare, hea, heb, Bool.false_eq_true, if_false] at *
    rw [hx, hy]
    simp only [Option.getD_some]
    omega
  · intro ha hb hnone
    have hea : da.isEmpty = false := by
      cases da with
      | nil => exact absurd rfl ha
      | cons c r => rfl
    have heb : db.isEmpty = false := by
      cases db with
      | nil => exact absurd rfl hb
      | cons c r => rfl
    simp only [cmpES, sortCompare, hea, heb, Bool.false_eq_true, if_false]
    rcases hnone with hn | hn
    · simp only at hn
      rw [hn]
      cases jsDateVal db <;> rfl
    · simp only at hn
      rw [hn]
      rfl

/-- Witness for C8 (amended): a missing-date document compares after a dated
one. -/
theorem c8_sort_comparator_witness :
    (⟨['m'], []⟩ : DocMeta).date = [] ∧ cmpES ⟨['m'], []⟩ exDocD = 1 :=
  ⟨rfl, (c8_sort_comparator ⟨['m'], []⟩ exDocD).1 rfl (by decide)⟩

/-- Witness for C6 (amended) at a concrete creation. -/
theorem c6_create_get_witness :
    generateSlug exTitle (jsOrStr (some exType) noteChars) =
        ['j','o','u','r','n','a','l','s','/','m','y','-','n','o','t','e'] ∧
      (routePOSTcreate exRoot exTitle (some exType) (some exTags) exBody exToday
          ⟨[], []⟩).1 =
        CreateResult.created (generateSlug exTitle (jsOrStr (some exType) noteChars)) := by
  refine ⟨by decide, ?_⟩
  exact (c6_create_get exRoot exTitle (some exType) (some exTags) exBody exToday
    ⟨[], []⟩ (by decide) (by decide) (by decide) (by decide) (by decide) (by decide)
    (by decide) rfl).1

end LifeOS
